import Mathlib

/-!
Shallow embedding of the response-merging, planning, entity-resolution and
query-analysis core of the envoy-wasm-graphql federation gateway
(pkg/filter/root_context.go, pkg/federation/planner.go, pkg/planner/planner.go,
pkg/federation/engine.go, pkg/federation/entity_resolver.go, and the parser's
depth/complexity analyzer), together with proofs settling the frozen claims.

Modelling conventions:
* Go `interface{}` JSON-like values become the inductive `GoValue`; a Go `nil`
  interface is `GoValue.vnull` when it sits inside a container and `Option.none`
  when a whole field may be absent.  Go `map[string]T` becomes an association
  list in first-insertion order (Go map iteration order is unspecified; the
  model fixes one deterministic order, and every theorem proved here is
  insensitive to that choice).
* Go `error` values become `GoErr`: `GoErr.fed code msg` models a
  `*errors.FederationError` built by the `errors.New*` constructors and
  `GoErr.plain msg` models a plain `fmt.Errorf` error (its rendered message).
* Functions whose Go recursion is bounded by a runtime guard (the merger's
  `MaxDepth` counter, the parser's visited set, the DFS visiting set, Kahn's
  queue) take an explicit fuel argument in the model; fuel exhaustion returns a
  distinguished value that is proved unreachable (or is unreachable on every
  input a theorem touches) so that fuel is an artifact of totality, not of
  behaviour.
-/

namespace FedGw

/-- Go `interface{}` values as decoded from JSON: null, booleans, numbers
(collapsed to `Int`; the merger paths exercised by the claims never distinguish
`int`/`int64`/`float64`), strings, `[]interface{}` and `map[string]interface{}`
(as an association list in insertion order). -/
inductive GoValue where
  | vnull : GoValue
  | vbool : Bool → GoValue
  | vint : Int → GoValue
  | vstr : String → GoValue
  | varr : List GoValue → GoValue
  | vobj : List (String × GoValue) → GoValue

/-- Go `error` values: `fed` is a `*errors.FederationError` (code + message),
`plain` is a plain `fmt.Errorf` error carrying only its rendered message. -/
inductive GoErr where
  | fed : String → String → GoErr
  | plain : String → GoErr
deriving DecidableEq

/-- The `errors.ErrCodePlanningFailed` constant. -/
def ErrCodePlanningFailed : String := "PLANNING_FAILED"

/-- The `errors.ErrCodeValidation` constant. -/
def ErrCodeValidation : String := "VALIDATION_ERROR"

/-- `errors.NewPlanningError` (pkg/errors/errors.go). -/
def NewPlanningError (message : String) : GoErr := .fed ErrCodePlanningFailed message

/-- `errors.NewValidationError` (pkg/errors/errors.go). -/
def NewValidationError (message : String) : GoErr := .fed ErrCodeValidation message

/-- Code carried by a `GoErr` (empty for plain errors). -/
def GoErr.code : GoErr → String
  | .fed c _ => c
  | .plain _ => ""

/-- Association-list lookup, modelling Go map indexing `m[k]` (first binding
wins; Go maps have unique keys, so lists built by `putA` never shadow). -/
def lookupA {α : Type} : List (String × α) → String → Option α
  | [], _ => none
  | kv :: rest, k => if kv.1 = k then some kv.2 else lookupA rest k

/-- Association-list insert-or-update, modelling Go map assignment
`m[k] = v` (updates in place, appends a new key at the end). -/
def putA {α : Type} : List (String × α) → String → α → List (String × α)
  | [], k, v => [(k, v)]
  | kv :: rest, k, v => if kv.1 = k then (k, v) :: rest else kv :: putA rest k v

/-- `types.GraphQLError` (pkg/types/types.go); `extensions` is `none` for a nil
Go map (locations/path are never read by the merger and are omitted). -/
structure GraphQLError where
  message : String
  extensions : Option (List (String × GoValue))

/-- `types.ServiceResponse` (pkg/types/types.go).  `latencyStr` is the
rendering `Latency.String()` (the only use the merger makes of the latency);
`error` is the message of the transport-level `Error` when non-nil. -/
structure ServiceResponse where
  data : Option GoValue
  errors : List GraphQLError
  metadata : Option (List (String × GoValue))
  service : String
  latencyStr : String
  error : Option String
  headers : Option (List (String × String))

/-- `types.SubQuery`, restricted to the fields the embedded planner and engine
read (serviceName, query, timeout). -/
structure SubQuery where
  serviceName : String
  query : String
  timeout : Int
deriving DecidableEq

/-- `types.ExecutionPlan`, restricted to the fields the embedded code reads:
sub-queries, the dependency map and the merge strategy (a Go string type). -/
structure ExecutionPlan where
  subQueries : List SubQuery
  dependencies : List (String × List String)
  mergeStrategy : String

/-- `types.MergeStrategyShallow`. -/
def MergeStrategyShallow : String := "shallow"

/-- `types.MergeStrategyDeep`. -/
def MergeStrategyDeep : String := "deep"

/-- `types.GraphQLResponse`: data (nil interface = `none`), errors,
extensions (`none` for a nil Go map, `some` for an allocated one). -/
structure GraphQLResponse where
  data : Option GoValue
  errors : List GraphQLError
  extensions : Option (List (String × GoValue))

/-- Conflict/null policy constants of pkg/filter/root_context.go (Go string
types, kept as strings so that the `default` switch branches stay visible). -/
def ConflictPolicyFirst : String := "first"

/-- `ConflictPolicyLast` constant. -/
def ConflictPolicyLast : String := "last"

/-- `ConflictPolicyMerge` constant. -/
def ConflictPolicyMerge : String := "merge"

/-- `ConflictPolicyError` constant. -/
def ConflictPolicyError : String := "error"

/-- `NullPolicySkip` constant. -/
def NullPolicySkip : String := "skip"

/-- `NullPolicyKeep` constant. -/
def NullPolicyKeep : String := "keep"

/-- `NullPolicyOverride` constant. -/
def NullPolicyOverride : String := "override"

/-- `MergerConfig` (pkg/filter/root_context.go).  A custom `FieldMerger` is a
function from field name and collected values to a merged value or an error;
`fieldMapping` returns `none` where the Go map has no entry. -/
structure MergerConfig where
  maxDepth : Int
  conflictPolicy : String
  nullPolicy : String
  fieldMapping : String → Option (String → List GoValue → Except GoErr GoValue)

/-- `DefaultMergerConfig` (pkg/filter/root_context.go). -/
def DefaultMergerConfig : MergerConfig :=
  { maxDepth := 10
    conflictPolicy := ConflictPolicyFirst
    nullPolicy := NullPolicySkip
    fieldMapping := fun _ => none }

/-- `getErrorSeverity` (root_context.go): severity ranking used to order the
merged error list; the `code` extension is compared against string constants
(a non-string or missing code falls to the default 50). -/
def getErrorSeverity (err : GraphQLError) : Int :=
  match err.extensions with
  | some exts =>
    match lookupA exts "code" with
    | some (.vstr "INTERNAL_ERROR") => 100
    | some (.vstr "SERVICE_ERROR") => 90
    | some (.vstr "VALIDATION_ERROR") => 80
    | some (.vstr "AUTHORIZATION_ERROR") => 70
    | some (.vstr "RATE_LIMIT_ERROR") => 60
    | some _ => 50
    | none => 50
  | none => 50

/-- Rendering of an extension value through Go's `%s` verb as used in
`fmt.Sprintf("%s:%s", key, code)` inside `MergeErrors`: a string renders as
itself, any other dynamic type through Go's mismatched-verb fallback. -/
def sprintfS : GoValue → String
  | .vstr s => s
  | .vint n => "%!s(int=" ++ toString n ++ ")"
  | .vbool b => "%!s(bool=" ++ toString b ++ ")"
  | .vnull => "%!s(<nil>)"
  | .varr _ => "%!s(slice)"
  | .vobj _ => "%!s(map)"

/-- De-duplication key computed by `MergeErrors`: the message, extended to
`message:code` when the extensions map carries a `code` entry. -/
def mergeErrorsKey (err : GraphQLError) : String :=
  match err.extensions with
  | some exts =>
    match lookupA exts "code" with
    | some c => err.message ++ ":" ++ sprintfS c
    | none => err.message
  | none => err.message

/-- First pass of `MergeErrors`: keep the first error for each key not seen
yet (the Go loop over `errors` with the `seen` set). -/
def dedupErrorsLoop (seen : List String) : List GraphQLError → List GraphQLError
  | [] => []
  | e :: rest =>
    if mergeErrorsKey e ∈ seen then dedupErrorsLoop seen rest
    else e :: dedupErrorsLoop (mergeErrorsKey e :: seen) rest

/-- `MergeErrors` (root_context.go): de-duplicate by key, then sort by
severity, highest first (`sort.Slice` with `severity i > severity j`; the Go
sort is unstable, the model uses a stable merge sort producing one of the
admissible orders). -/
def MergeErrors (errors : List GraphQLError) : List GraphQLError :=
  if errors.length = 0 then []
  else
    (dedupErrorsLoop [] errors).mergeSort
      (fun a b => getErrorSeverity b ≤ getErrorSeverity a)


/-- `shouldMergeRecursively` (root_context.go): recurse when both values are
objects, or both are arrays. -/
def shouldMergeRecursively (existing value : GoValue) : Bool :=
  match existing, value with
  | .vobj _, .vobj _ => true
  | .varr _, .varr _ => true
  | _, _ => false

/-- Equality of Go dynamic types, as tested by
`reflect.TypeOf(existing) == reflect.TypeOf(value)` in `attemptMerge`
(numeric types collapsed, see `GoValue`). -/
def sameGoType (a b : GoValue) : Bool :=
  match a, b with
  | .vnull, .vnull => true
  | .vbool _, .vbool _ => true
  | .vint _, .vint _ => true
  | .vstr _, .vstr _ => true
  | .varr _, .varr _ => true
  | .vobj _, .vobj _ => true
  | _, _ => false

/-- Go type name produced by `reflect.TypeOf(v).String()`, used only inside
error messages of `resolvePrimitiveConflict`. -/
def goTypeName : GoValue → String
  | .vnull => "<nil>"
  | .vbool _ => "bool"
  | .vint _ => "int"
  | .vstr _ => "string"
  | .varr _ => "[]interface \x7b\x7d"
  | .vobj _ => "map[string]interface \x7b\x7d"

/-- `mergeNumbers` (root_context.go) restricted to the model's single numeric
type: numeric `merge` sums the two values. -/
def mergeNumbers (a b : Int) : Except GoErr GoValue := .ok (.vint (a + b))

/-- `resolvePrimitiveConflict` (root_context.go): pick among conflicting
primitive values according to the conflict policy (`first`/`last`/`error`,
default `first`). -/
def resolvePrimitiveConflict (cfg : MergerConfig) (values : List GoValue)
    (typeName : String) : Except GoErr (Option GoValue) :=
  if values.length = 0 then .ok none
  else if cfg.conflictPolicy = ConflictPolicyFirst then .ok (values.head?)
  else if cfg.conflictPolicy = ConflictPolicyLast then .ok (values.getLast?)
  else if cfg.conflictPolicy = ConflictPolicyError then
    .error (.plain ("primitive type conflict for type " ++ typeName))
  else .ok (values.head?)

/-- Test for a Go nil interface value (`v == nil` on an `interface\x7b\x7d`). -/
def GoValue.isNull : GoValue → Bool
  | .vnull => true
  | _ => false

mutual

/-- Canonical JSON rendering standing in for `jsonutil.Marshal`, used by
`deduplicateArray` only as a structural-equality key (object keys sorted so
that the key is independent of insertion order, mirroring a canonical
serialization). -/
def serializeGo : GoValue → String
  | .vnull => "null"
  | .vbool b => if b then "true" else "false"
  | .vint n => toString n
  | .vstr s => "\"" ++ s ++ "\""
  | .varr xs => "[" ++ String.intercalate "," (serializeGoList xs) ++ "]"
  | .vobj fs =>
    let sorted := (serializeGoFields fs).mergeSort (fun a b => a.1 ≤ b.1)
    "\x7b" ++ String.intercalate "," (sorted.map fun kv => "\"" ++ kv.1 ++ "\":" ++ kv.2) ++ "\x7d"

/-- Renders each element of an array for `serializeGo`. -/
def serializeGoList : List GoValue → List String
  | [] => []
  | x :: xs => serializeGo x :: serializeGoList xs

/-- Renders each field of an object for `serializeGo`. -/
def serializeGoFields : List (String × GoValue) → List (String × String)
  | [] => []
  | (k, v) :: rest => (k, serializeGo v) :: serializeGoFields rest

end

/-- `deduplicateArray` (root_context.go): keep the first occurrence of each
element, identified by its serialized form. -/
def deduplicateArray (arr : List GoValue) : List GoValue :=
  (arr.foldl
    (fun (st : List String × List GoValue) item =>
      let key := serializeGo item
      if key ∈ st.1 then st else (key :: st.1, st.2 ++ [item]))
    ([], [])).2

/-- `mergeArrays` (root_context.go): concatenate all array items (non-arrays
skipped), then de-duplicate by serialized form. -/
def mergeArrays (arrays : List GoValue) : Except GoErr (List GoValue) :=
  let result := arrays.foldl
    (fun acc arr => match arr with
      | .varr xs => acc ++ xs
      | _ => acc) []
  .ok (deduplicateArray result)

mutual

/-- `mergeDataDeep` (root_context.go): merge the `Data` payloads of several
service responses, dispatching on the dynamic type of the first non-nil item.
`fuel` bounds the mutual recursion (the Go recursion is bounded by the
`depth > MaxDepth` guard; `mergeFuel` below always over-approximates it). -/
def mergeDataDeep (fuel : Nat) (cfg : MergerConfig)
    (responses : List ServiceResponse) (depth : Nat) :
    Except GoErr (Option GoValue) :=
  match fuel with
  | 0 => .error (.plain "model: fuel exhausted")
  | fuel + 1 =>
    if (depth : Int) > cfg.maxDepth then
      .error (.plain ("maximum merge depth " ++ toString cfg.maxDepth ++ " exceeded"))
    else if responses.length = 0 then .ok none
    else if responses.length = 1 then .ok ((responses.head?.map (·.data)).join)
    else
      match responses.filterMap (·.data) with
      | [] => .ok none
      | firstItem :: restItems =>
        let dataItems := firstItem :: restItems
        match firstItem with
        | .vobj _ =>
          match mergeObjects fuel cfg dataItems depth with
          | .ok m => .ok (some (.vobj m))
          | .error e => .error e
        | .varr _ =>
          match mergeArrays dataItems with
          | .ok xs => .ok (some (.varr xs))
          | .error e => .error e
        | _ => resolvePrimitiveConflict cfg dataItems (goTypeName firstItem)

/-- `mergeObjects` (root_context.go): fold all object items into one map,
recursing on same-shaped collisions and resolving the rest through the
conflict policy. -/
def mergeObjects (fuel : Nat) (cfg : MergerConfig) (objects : List GoValue)
    (depth : Nat) : Except GoErr (List (String × GoValue)) :=
  match fuel with
  | 0 => .error (.plain "model: fuel exhausted")
  | fuel + 1 => mergeObjectsOuter fuel cfg objects depth []

/-- Outer loop of `mergeObjects` over the object list (non-objects skipped). -/
def mergeObjectsOuter (fuel : Nat) (cfg : MergerConfig) (objects : List GoValue)
    (depth : Nat) (result : List (String × GoValue)) :
    Except GoErr (List (String × GoValue)) :=
  match objects with
  | [] => .ok result
  | obj :: rest =>
    match obj with
    | .vobj fields =>
      match mergeObjectsInner fuel cfg fields depth result with
      | .ok result' => mergeObjectsOuter fuel cfg rest depth result'
      | .error e => .error e
    | _ => mergeObjectsOuter fuel cfg rest depth result

/-- Inner loop of `mergeObjects` over one object's fields. -/
def mergeObjectsInner (fuel : Nat) (cfg : MergerConfig)
    (fields : List (String × GoValue)) (depth : Nat)
    (result : List (String × GoValue)) :
    Except GoErr (List (String × GoValue)) :=
  match fields with
  | [] => .ok result
  | (key, value) :: rest =>
    match lookupA result key with
    | some existing =>
      if shouldMergeRecursively existing value then
        match mergeDataDeep fuel cfg
            [{ data := some existing, errors := [], metadata := none,
               service := "", latencyStr := "", error := none, headers := none },
             { data := some value, errors := [], metadata := none,
               service := "", latencyStr := "", error := none, headers := none }]
            (depth + 1) with
        | .ok mergedValue =>
          mergeObjectsInner fuel cfg rest depth
            (putA result key (mergedValue.getD .vnull))
        | .error e => .error e
      else
        match resolveFieldConflict fuel cfg key existing value with
        | .ok resolvedValue =>
          mergeObjectsInner fuel cfg rest depth (putA result key resolvedValue)
        | .error e => .error e
    | none => mergeObjectsInner fuel cfg rest depth (putA result key value)

/-- `resolveFieldConflict` (root_context.go): custom field merger first, then
null-policy handling, then the conflict policy (`first`/`last`/`merge`/`error`,
default keeps the existing value). -/
def resolveFieldConflict (fuel : Nat) (cfg : MergerConfig) (fieldName : String)
    (existing value : GoValue) : Except GoErr GoValue :=
  match fuel with
  | 0 => .error (.plain "model: fuel exhausted")
  | fuel + 1 =>
    match cfg.fieldMapping fieldName with
    | some merger => merger fieldName [existing, value]
    | none =>
      if value.isNull ∧ cfg.nullPolicy = NullPolicySkip then .ok existing
      else if value.isNull ∧
          (cfg.nullPolicy = NullPolicyKeep ∨ cfg.nullPolicy = NullPolicyOverride) then
        .ok value
      else if existing.isNull then .ok value
      else if cfg.conflictPolicy = ConflictPolicyFirst then .ok existing
      else if cfg.conflictPolicy = ConflictPolicyLast then .ok value
      else if cfg.conflictPolicy = ConflictPolicyMerge then
        attemptMerge fuel cfg existing value
      else if cfg.conflictPolicy = ConflictPolicyError then
        .error (.plain ("field conflict detected for " ++ fieldName))
      else .ok existing

/-- `attemptMerge` (root_context.go): when both values share a dynamic type,
merge objects/arrays recursively (with a fresh depth of 0), concatenate
strings with a space, and sum numbers; otherwise keep the first value. -/
def attemptMerge (fuel : Nat) (cfg : MergerConfig) (existing value : GoValue) :
    Except GoErr GoValue :=
  match fuel with
  | 0 => .error (.plain "model: fuel exhausted")
  | fuel + 1 =>
    if sameGoType existing value then
      match existing, value with
      | .vobj _, _ =>
        match mergeObjects fuel cfg [existing, value] 0 with
        | .ok m => .ok (.vobj m)
        | .error e => .error e
      | .varr _, _ =>
        match mergeArrays [existing, value] with
        | .ok xs => .ok (.varr xs)
        | .error e => .error e
      | .vstr a, .vstr b => .ok (.vstr (a ++ " " ++ b))
      | .vint a, .vint b => mergeNumbers a b
      | _, _ => .ok existing
    else .ok existing

end

/-- Fuel that over-approximates the recursion depth the Go merger can reach:
the `depth > MaxDepth` guard stops `mergeDataDeep` after `MaxDepth + 1`
levels, each level crossing at most four mutual calls, plus slack for the one
possible `attemptMerge` detour at entry. -/
def mergeFuel (cfg : MergerConfig) : Nat := 4 * (cfg.maxDepth.toNat + 2) + 8

/-- GraphQL error synthesized from a transport-level service failure:
`Service <name> error: <msg>` with `service`/`code` extensions
(`SERVICE_ERROR`), as built in `mergeShallow`/`mergeDeep`. -/
def serviceGraphQLError (service msg : String) : GraphQLError :=
  { message := "Service " ++ service ++ " error: " ++ msg
    extensions := some [("service", .vstr service), ("code", .vstr "SERVICE_ERROR")] }

/-- `extractExtensions` (root_context.go): one extension map per response
that carries headers (service name, headers, latency, optional metadata). -/
def extractExtensions (responses : List ServiceResponse) :
    List (List (String × GoValue)) :=
  responses.foldl
    (fun acc resp =>
      match resp.headers with
      | some hdrs =>
        let ext : List (String × GoValue) :=
          [("service", .vstr resp.service),
           ("headers", .vobj (hdrs.map fun kv => (kv.1, .vstr kv.2))),
           ("latency", .vstr resp.latencyStr)]
        let ext := match resp.metadata with
          | some md => ext ++ [("metadata", .vobj md)]
          | none => ext
        acc ++ [ext]
      | none => acc) []

/-- `MergeExtensions` (root_context.go): fold all extension maps into one,
merging colliding keys with `attemptMerge` and falling back to the later
value when that fails; a nil map (`none`) is returned for empty input. -/
def MergeExtensions (cfg : MergerConfig)
    (extensions : List (List (String × GoValue))) :
    Option (List (String × GoValue)) :=
  if extensions.length = 0 then none
  else some (extensions.foldl
    (fun result ext =>
      ext.foldl
        (fun result kv =>
          match lookupA result kv.1 with
          | some existing =>
            match attemptMerge (mergeFuel cfg) cfg existing kv.2 with
            | .ok merged => putA result kv.1 merged
            | .error _ => putA result kv.1 kv.2
          | none => putA result kv.1 kv.2) result) [])

/-- `mergeExtensionsDeep` (root_context.go): merged extensions plus a
`merge_metadata` entry listing the contributing services, the strategy name
and the response count. -/
def mergeExtensionsDeep (cfg : MergerConfig) (responses : List ServiceResponse) :
    List (String × GoValue) :=
  let merged := (MergeExtensions cfg (extractExtensions responses)).getD []
  putA merged "merge_metadata"
    (.vobj [("merged_services", .varr (responses.map fun r => .vstr r.service)),
            ("merge_strategy", .vstr "deep"),
            ("response_count", .vint responses.length)])

/-- Error-and-valid-response collection loop shared textually by
`mergeDeep`'s first pass: transport failures become `SERVICE_ERROR` GraphQL
errors, service-returned errors are appended, and responses with non-nil data
are kept as the valid set. -/
def collectDeep : List ServiceResponse →
    List GraphQLError × List ServiceResponse
  | [] => ([], [])
  | resp :: rest =>
    let (es, vs) := collectDeep rest
    match resp.error with
    | some msg => (serviceGraphQLError resp.service msg :: es, vs)
    | none =>
      match resp.data with
      | some _ => (resp.errors ++ es, resp :: vs)
      | none => (resp.errors ++ es, vs)

/-- `mergeDeep` (root_context.go): collect errors and valid responses; with
no valid data the collected errors are returned with nil data; otherwise the
data payloads are deep-merged and errors/extensions aggregated. -/
def mergeDeep (cfg : MergerConfig) (responses : List ServiceResponse)
    (_plan : Option ExecutionPlan) : Except GoErr GraphQLResponse :=
  let (allErrors, validResponses) := collectDeep responses
  if validResponses.length = 0 then
    .ok { data := none, errors := allErrors, extensions := some [] }
  else
    match mergeDataDeep (mergeFuel cfg) cfg validResponses 0 with
    | .error e =>
      .error (.fed "EXECUTION_FAILED"
        ("deep merge failed: " ++ (match e with | .fed _ m => m | .plain m => m)))
    | .ok mergedData =>
      .ok { data := mergedData
            errors := MergeErrors allErrors
            extensions := some (mergeExtensionsDeep cfg validResponses) }

/-- Insertion of one field into the shallow-merge data map: an existing key
goes through `resolveFieldConflict` (a failed resolution skips the field, cf.
the `continue` in the Go loop), a fresh key is stored directly. -/
def shallowInsertField (cfg : MergerConfig) (dataMap : List (String × GoValue))
    (kv : String × GoValue) : List (String × GoValue) :=
  match lookupA dataMap kv.1 with
  | some existing =>
    match resolveFieldConflict (mergeFuel cfg) cfg kv.1 existing kv.2 with
    | .ok mergedValue => putA dataMap kv.1 mergedValue
    | .error _ => dataMap
  | none => putA dataMap kv.1 kv.2

/-- One response's contribution to the `mergeShallow` fold: skip on transport
error (recording a `SERVICE_ERROR`), append service-returned errors, and merge
object data field-by-field. -/
def mergeShallowStep (cfg : MergerConfig)
    (st : List (String × GoValue) × List GraphQLError) (resp : ServiceResponse) :
    List (String × GoValue) × List GraphQLError :=
  match resp.error with
  | some msg => (st.1, st.2 ++ [serviceGraphQLError resp.service msg])
  | none =>
    let st := (st.1, st.2 ++ resp.errors)
    match resp.data with
    | some (.vobj fields) =>
      (fields.foldl (shallowInsertField cfg) st.1, st.2)
    | _ => st

/-- `mergeShallow` (root_context.go): fold responses left-to-right into one
object, then aggregate errors and extensions; never fails (a conflict error
only skips the field). -/
def mergeShallow (cfg : MergerConfig) (responses : List ServiceResponse)
    (_plan : Option ExecutionPlan) : GraphQLResponse :=
  let (dataMap, allErrors) := responses.foldl (mergeShallowStep cfg) ([], [])
  { data := some (.vobj dataMap)
    errors := MergeErrors allErrors
    extensions := MergeExtensions cfg (extractExtensions responses) }

/-- `MergeResponses` (root_context.go): empty input returns nil data; a nil
plan gets a default shallow plan; the strategy switch dispatches to deep or
shallow merging, any other strategy (the `default` branch) falling back to
shallow. -/
def MergeResponses (cfg : MergerConfig) (responses : List ServiceResponse)
    (plan : Option ExecutionPlan) : Except GoErr GraphQLResponse :=
  if responses.length = 0 then
    .ok { data := none, errors := [], extensions := none }
  else
    let plan := plan.getD
      { subQueries := [], dependencies := [], mergeStrategy := MergeStrategyShallow }
    if plan.mergeStrategy = MergeStrategyDeep then
      mergeDeep cfg responses (some plan)
    else if plan.mergeStrategy = MergeStrategyShallow then
      .ok (mergeShallow cfg responses (some plan))
    else
      .ok (mergeShallow cfg responses (some plan))

/-! Association-list helper lemmas. -/

theorem lookupA_eq_none_iff {α : Type} (l : List (String × α)) (k : String) :
    lookupA l k = none ↔ ∀ p ∈ l, p.1 ≠ k := by
  induction l with
  | nil => simp [lookupA]
  | cons kv rest ih =>
    by_cases h : kv.1 = k <;> simp [lookupA, h, ih]

theorem putA_of_lookupA_none {α : Type} {l : List (String × α)} {k : String}
    (v : α) (h : lookupA l k = none) : putA l k v = l ++ [(k, v)] := by
  induction l with
  | nil => simp [putA]
  | cons kv rest ih =>
    simp only [lookupA] at h
    by_cases hk : kv.1 = k
    · simp [hk] at h
    · have hrest : lookupA rest k = none := by simpa [hk] using h
      simp [putA, hk, ih hrest]

theorem foldl_shallowInsert_fresh (cfg : MergerConfig) :
    ∀ (fields acc : List (String × GoValue)),
      (((acc ++ fields).map Prod.fst)).Nodup →
      fields.foldl (shallowInsertField cfg) acc = acc ++ fields := by
  intro fields
  induction fields with
  | nil => simp
  | cons kv rest ih =>
    intro acc hn
    have hdisj : List.Disjoint ((acc.map Prod.fst))
        (kv.1 :: rest.map Prod.fst) := by
      simp only [List.map_append, List.map_cons, List.nodup_append] at hn
      exact hn.2.2
    have hfresh : lookupA acc kv.1 = none := by
      rw [lookupA_eq_none_iff]
      intro p hp hcontra
      exact hdisj (hcontra ▸ List.mem_map_of_mem Prod.fst hp) (List.mem_cons_self _ _)
    have hstep : shallowInsertField cfg acc kv = acc ++ [kv] := by
      simp only [shallowInsertField, hfresh]
      rw [putA_of_lookupA_none _ hfresh]
    rw [List.foldl_cons, hstep, ih (acc ++ [kv]) (by simpa using hn)]
    simp

/-- Service response carrying data `("a" : 1)` only (for concrete merge
examples). -/
def respConflictA1 : ServiceResponse :=
  { data := some (.vobj [("a", .vint 1)]), errors := [], metadata := none,
    service := "svc-one", latencyStr := "", error := none, headers := none }

/-- Service response carrying data `("a" : 2)` only. -/
def respConflictA2 : ServiceResponse :=
  { data := some (.vobj [("a", .vint 2)]), errors := [], metadata := none,
    service := "svc-two", latencyStr := "", error := none, headers := none }

/-- C9: merging a single ServiceResponse whose Data is an object with strategy
shallow is the identity on that object: the final response's data is exactly
the input object (and no errors or extensions are produced); in particular
this holds for the object with the single field a = 1. -/
theorem mergeResponses_singleton_shallow_identity
    (cfg : MergerConfig) (fields : List (String × GoValue)) (svc lat : String)
    (hn : (fields.map Prod.fst).Nodup) :
    MergeResponses cfg
      [{ data := some (.vobj fields), errors := [], metadata := none,
         service := svc, latencyStr := lat, error := none, headers := none }]
      (some { subQueries := [], dependencies := [],
              mergeStrategy := MergeStrategyShallow }) =
    .ok { data := some (.vobj fields), errors := [], extensions := none } := by
  have hfold := foldl_shallowInsert_fresh cfg fields [] (by simpa using hn)
  simp [MergeResponses, mergeShallow, mergeShallowStep, hfold, MergeErrors,
    MergeExtensions, extractExtensions, MergeStrategyShallow, MergeStrategyDeep]

/-- Witness for C9 at the concrete object with a = 1. -/
theorem mergeResponses_singleton_shallow_identity_witness :
    MergeResponses DefaultMergerConfig
      [{ data := some (.vobj [("a", .vint 1)]), errors := [], metadata := none,
         service := "users-service", latencyStr := "", error := none,
         headers := none }]
      (some { subQueries := [], dependencies := [],
              mergeStrategy := MergeStrategyShallow }) =
    .ok { data := some (.vobj [("a", .vint 1)]), errors := [],
          extensions := none } :=
  mergeResponses_singleton_shallow_identity DefaultMergerConfig
    [("a", .vint 1)] "users-service" "" (by simp)

/-- Key step of C8: with no custom merger and two non-null values,
`resolveFieldConflict` keeps the existing value under policy `first`. -/
theorem resolveFieldConflict_keeps_first
    (cfg : MergerConfig) (fuel : Nat) (name : String) (existing value : GoValue)
    (hmap : cfg.fieldMapping name = none)
    (hv : value.isNull = false) (he : existing.isNull = false)
    (hp : cfg.conflictPolicy = ConflictPolicyFirst) :
    resolveFieldConflict (fuel + 1) cfg name existing value = .ok existing := by
  simp [resolveFieldConflict, hmap, hv, he, hp]

/-- Key step of C8: with no custom merger and two non-null values,
`resolveFieldConflict` keeps the new value under policy `last`. -/
theorem resolveFieldConflict_keeps_last
    (cfg : MergerConfig) (fuel : Nat) (name : String) (existing value : GoValue)
    (hmap : cfg.fieldMapping name = none)
    (hv : value.isNull = false) (he : existing.isNull = false)
    (hp : cfg.conflictPolicy = ConflictPolicyLast) :
    resolveFieldConflict (fuel + 1) cfg name existing value = .ok value := by
  simp [resolveFieldConflict, hmap, hv, he, hp,
    ConflictPolicyFirst, ConflictPolicyLast]

/-- C8: a field collision between two non-null values (no custom field
merger) keeps the first value under conflict policy `first` and the last
value under policy `last`; concretely, shallow-merging the responses with
data a = 1 and a = 2 yields a = 1 under `first` and a = 2 under `last`. -/
theorem resolveFieldConflict_first_last
    (cfg : MergerConfig) (fuel : Nat) (name : String) (existing value : GoValue)
    (hmap : cfg.fieldMapping name = none)
    (hv : value.isNull = false) (he : existing.isNull = false) :
    (cfg.conflictPolicy = ConflictPolicyFirst →
      resolveFieldConflict (fuel + 1) cfg name existing value = .ok existing) ∧
    (cfg.conflictPolicy = ConflictPolicyLast →
      resolveFieldConflict (fuel + 1) cfg name existing value = .ok value) ∧
    MergeResponses DefaultMergerConfig [respConflictA1, respConflictA2] none =
      .ok { data := some (.vobj [("a", .vint 1)]), errors := [],
            extensions := none } ∧
    MergeResponses { DefaultMergerConfig with conflictPolicy := ConflictPolicyLast }
        [respConflictA1, respConflictA2] none =
      .ok { data := some (.vobj [("a", .vint 2)]), errors := [],
            extensions := none } := by
  refine ⟨fun hp => resolveFieldConflict_keeps_first cfg fuel name existing value
      hmap hv he hp,
    fun hp => resolveFieldConflict_keeps_last cfg fuel name existing value
      hmap hv he hp, ?_, ?_⟩
  · obtain ⟨f, hf⟩ : ∃ f, mergeFuel DefaultMergerConfig = f + 1 := ⟨55, rfl⟩
    have hrw := resolveFieldConflict_keeps_first DefaultMergerConfig f "a"
      (.vint 1) (.vint 2) rfl rfl rfl rfl
    simp [MergeResponses, mergeShallow, mergeShallowStep, shallowInsertField,
      respConflictA1, respConflictA2, lookupA, putA, MergeErrors,
      MergeExtensions, extractExtensions, hf, hrw,
      MergeStrategyShallow, MergeStrategyDeep]
  · obtain ⟨f, hf⟩ : ∃ f, mergeFuel
        { DefaultMergerConfig with conflictPolicy := ConflictPolicyLast } = f + 1 :=
      ⟨55, rfl⟩
    have hrw := resolveFieldConflict_keeps_last
      { DefaultMergerConfig with conflictPolicy := ConflictPolicyLast } f "a"
      (.vint 1) (.vint 2) rfl rfl rfl rfl
    simp [MergeResponses, mergeShallow, mergeShallowStep, shallowInsertField,
      respConflictA1, respConflictA2, lookupA, putA, MergeErrors,
      MergeExtensions, extractExtensions, hf, hrw,
      MergeStrategyShallow, MergeStrategyDeep]

/-- Witness for C8 at existing = 1, value = 2 under the default (first)
policy and under the last policy. -/
theorem resolveFieldConflict_first_last_witness :
    resolveFieldConflict 1 DefaultMergerConfig "a" (.vint 1) (.vint 2) =
      .ok (.vint 1) ∧
    resolveFieldConflict 1
      { DefaultMergerConfig with conflictPolicy := ConflictPolicyLast }
      "a" (.vint 1) (.vint 2) = .ok (.vint 2) :=
  ⟨(resolveFieldConflict_first_last DefaultMergerConfig 0 "a" (.vint 1)
      (.vint 2) rfl rfl rfl).1 rfl,
   (resolveFieldConflict_first_last
      { DefaultMergerConfig with conflictPolicy := ConflictPolicyLast }
      0 "a" (.vint 1) (.vint 2) rfl rfl rfl).2.1 rfl⟩

/-- C10: on a non-empty response list, `MergeResponses` with a nil plan or a
plan whose strategy is neither `shallow` nor `deep` does not fail and behaves
exactly as with the shallow strategy: it returns the shallow merge of the
responses. -/
theorem mergeResponses_default_strategy_shallow
    (cfg : MergerConfig) (rs : List ServiceResponse) (plan : Option ExecutionPlan)
    (hne : rs.length ≠ 0)
    (hplan : plan = none ∨ ∃ p, plan = some p ∧
      p.mergeStrategy ≠ MergeStrategyDeep ∧ p.mergeStrategy ≠ MergeStrategyShallow) :
    MergeResponses cfg rs plan = .ok (mergeShallow cfg rs plan) ∧
    MergeResponses cfg rs plan =
      MergeResponses cfg rs
        (some { subQueries := [], dependencies := [],
                mergeStrategy := MergeStrategyShallow }) := by
  have hplanfree : ∀ p₁ p₂ : Option ExecutionPlan,
      mergeShallow cfg rs p₁ = mergeShallow cfg rs p₂ := fun _ _ => rfl
  rcases hplan with h | ⟨p, hp, hd, hs⟩
  · subst h
    constructor
    · simp only [MergeResponses, if_neg hne, Option.getD, ite_self]
      exact congrArg Except.ok (hplanfree _ none)
    · rfl
  · subst hp
    constructor
    · simp only [MergeResponses, if_neg hne, Option.getD]
      rw [if_neg hd, if_neg hs]
    · simp only [MergeResponses, if_neg hne, Option.getD]
      rw [if_neg hd, if_neg hs]
      simp only [ite_self]
      rw [if_neg (show MergeStrategyShallow ≠ MergeStrategyDeep from by decide)]
      exact congrArg Except.ok (hplanfree (some p) _)

/-- Witness for C10 with one response and the unknown strategy `custom`. -/
theorem mergeResponses_default_strategy_shallow_witness :
    MergeResponses DefaultMergerConfig [respConflictA1]
        (some { subQueries := [], dependencies := [], mergeStrategy := "custom" }) =
      .ok (mergeShallow DefaultMergerConfig [respConflictA1]
        (some { subQueries := [], dependencies := [], mergeStrategy := "custom" })) ∧
    MergeResponses DefaultMergerConfig [respConflictA1]
        (some { subQueries := [], dependencies := [], mergeStrategy := "custom" }) =
      MergeResponses DefaultMergerConfig [respConflictA1]
        (some { subQueries := [], dependencies := [],
                mergeStrategy := MergeStrategyShallow }) :=
  mergeResponses_default_strategy_shallow DefaultMergerConfig [respConflictA1]
    (some { subQueries := [], dependencies := [], mergeStrategy := "custom" })
    (by simp) (Or.inr ⟨_, rfl, by decide, by decide⟩)

/-! Lemmas about the `MergeErrors` de-duplication pass. -/

theorem dedupErrorsLoop_nodup (es : List GraphQLError) :
    ∀ seen, ((dedupErrorsLoop seen es).map mergeErrorsKey).Nodup ∧
      (∀ k ∈ (dedupErrorsLoop seen es).map mergeErrorsKey, k ∉ seen) := by
  induction es with
  | nil => simp [dedupErrorsLoop]
  | cons e rest ih =>
    intro seen
    by_cases h : mergeErrorsKey e ∈ seen
    · simp only [dedupErrorsLoop, if_pos h]
      exact ih seen
    · simp only [dedupErrorsLoop, if_neg h, List.map_cons, List.nodup_cons]
      obtain ⟨hnd, hmem⟩ := ih (mergeErrorsKey e :: seen)
      refine ⟨⟨fun hc => (hmem _ hc) (List.mem_cons_self _ _), hnd⟩, ?_⟩
      intro k hk
      rcases List.mem_cons.mp hk with rfl | hk'
      · exact h
      · exact fun hs => (hmem k hk') (List.mem_cons_of_mem _ hs)

theorem dedupErrorsLoop_mem (es : List GraphQLError) :
    ∀ seen k, k ∈ (dedupErrorsLoop seen es).map mergeErrorsKey ↔
      (k ∈ es.map mergeErrorsKey ∧ k ∉ seen) := by
  induction es with
  | nil => simp [dedupErrorsLoop]
  | cons e rest ih =>
    intro seen k
    by_cases h : mergeErrorsKey e ∈ seen
    · rw [dedupErrorsLoop, if_pos h, ih]
      simp only [List.map_cons, List.mem_cons]
      constructor
      · rintro ⟨hk, hns⟩
        exact ⟨Or.inr hk, hns⟩
      · rintro ⟨rfl | hk, hns⟩
        · exact absurd h hns
        · exact ⟨hk, hns⟩
    · rw [dedupErrorsLoop, if_neg h]
      simp only [List.map_cons, List.mem_cons, ih]
      constructor
      · rintro (rfl | ⟨hk, hns⟩)
        · exact ⟨Or.inl rfl, h⟩
        · exact ⟨Or.inr hk, fun hs => hns (Or.inr hs)⟩
      · rintro ⟨rfl | hk, hns⟩
        · exact Or.inl rfl
        · by_cases hke : k = mergeErrorsKey e
          · exact Or.inl hke
          · exact Or.inr ⟨hk, by simp [hke, hns]⟩

/-- The `boom`/`code X` error of the spec example. -/
def boomErrX : GraphQLError :=
  { message := "boom", extensions := some [("code", .vstr "X")] }

/-- The (message, code-extension) pair of a GraphQL error, as named by the
claimed de-duplication criterion. -/
def errPair (e : GraphQLError) : String × Option GoValue :=
  (e.message, e.extensions.bind (lookupA · "code"))

/-- Counterexample to C5 as stated: the errors with message `boom:X` and no
code, and with message `boom` and code `X`, form two distinct
(message, error-code) pairs, yet `MergeErrors` collapses them into a single
entry because both render to the de-duplication key string `boom:X`. -/
theorem mergeErrors_pair_collision_cex :
    errPair { message := "boom:X", extensions := none } ≠
      errPair { message := "boom", extensions := some [("code", .vstr "X")] } ∧
    MergeErrors [{ message := "boom:X", extensions := none },
        { message := "boom", extensions := some [("code", .vstr "X")] }] =
      [{ message := "boom:X", extensions := none }] := by
  constructor
  · intro h
    simp [errPair, lookupA] at h
  · have hd : dedupErrorsLoop []
        [{ message := "boom:X", extensions := none },
         { message := "boom", extensions := some [("code", .vstr "X")] }] =
        [{ message := "boom:X", extensions := none }] := rfl
    rw [MergeErrors, if_neg (by simp), hd]
    exact List.perm_singleton.mp (List.mergeSort_perm _ _)

/-- C5 (amended): `MergeErrors` keeps exactly one error per distinct
de-duplication key string (the message, extended to `message:code` when a
code extension is present — distinct (message, code) pairs whose key strings
collide are conflated), and sorts the retained entries by non-increasing
severity under the fixed ranking of `getErrorSeverity`; two responses both
reporting message `boom` with code `X` produce exactly one error. -/
theorem mergeErrors_dedup_and_sorted (es : List GraphQLError) :
    ((MergeErrors es).map mergeErrorsKey).Nodup ∧
    (∀ k, k ∈ (MergeErrors es).map mergeErrorsKey ↔ k ∈ es.map mergeErrorsKey) ∧
    (MergeErrors es).Pairwise
      (fun a b => getErrorSeverity b ≤ getErrorSeverity a) ∧
    MergeErrors [boomErrX, boomErrX] = [boomErrX] := by
  have hperm : ∀ le, ((dedupErrorsLoop [] es).mergeSort le).map mergeErrorsKey |>.Perm
      ((dedupErrorsLoop [] es).map mergeErrorsKey) :=
    fun le => (List.mergeSort_perm _ le).map mergeErrorsKey
  refine ⟨?_, ?_, ?_, ?_⟩
  · by_cases hlen : es.length = 0
    · simp [MergeErrors, hlen]
    · rw [MergeErrors, if_neg hlen]
      exact ((hperm _).nodup_iff).mpr (dedupErrorsLoop_nodup es []).1
  · intro k
    by_cases hlen : es.length = 0
    · rw [List.length_eq_zero] at hlen
      subst hlen
      simp [MergeErrors]
    · rw [MergeErrors, if_neg hlen]
      rw [(hperm _).mem_iff, dedupErrorsLoop_mem]
      simp
  · by_cases hlen : es.length = 0
    · simp [MergeErrors, hlen]
    · rw [MergeErrors, if_neg hlen]
      have hs := @List.sorted_mergeSort GraphQLError
        (fun a b => decide (getErrorSeverity b ≤ getErrorSeverity a))
        (fun a b c h₁ h₂ => by
          simp only [decide_eq_true_eq] at h₁ h₂ ⊢
          exact le_trans h₂ h₁)
        (fun a b => by
          simp only [Bool.or_eq_true, decide_eq_true_eq]
          exact le_total _ _)
        (dedupErrorsLoop [] es)
      exact hs.imp (fun h => by simpa using h)
  · have hd : dedupErrorsLoop [] [boomErrX, boomErrX] = [boomErrX] := rfl
    rw [MergeErrors, if_neg (by simp), hd]
    exact List.perm_singleton.mp (List.mergeSort_perm _ _)

/-! Lemmas about the `mergeDeep` collection pass. -/

theorem collectDeep_valid_nil (rs : List ServiceResponse)
    (h : ∀ r ∈ rs, r.error ≠ none ∨ r.data = none) : (collectDeep rs).2 = [] := by
  induction rs with
  | nil => rfl
  | cons r rest ih =>
    have hr := h r (List.mem_cons_self _ _)
    have hrest := ih (fun x hx => h x (List.mem_cons_of_mem _ hx))
    rcases he : r.error with _ | msg
    · rcases hd : r.data with _ | d
      · simp [collectDeep, he, hd, hrest]
      · rcases hr with hr | hr
        · exact absurd he hr
        · rw [hd] at hr
          exact absurd hr (by simp)
    · simp [collectDeep, he, hrest]

theorem collectDeep_transport_mem (rs : List ServiceResponse) (r : ServiceResponse)
    (hr : r ∈ rs) (msg : String) (he : r.error = some msg) :
    serviceGraphQLError r.service msg ∈ (collectDeep rs).1 := by
  induction rs with
  | nil => cases hr
  | cons x rest ih =>
    rcases List.mem_cons.mp hr with rfl | hr'
    · simp [collectDeep, he]
    · have hmem := ih hr'
      rcases hx : x.error with _ | m
      · rcases hd : x.data with _ | d <;>
          simp [collectDeep, hx, hd, List.mem_append, hmem]
      · simp [collectDeep, hx, hmem]

theorem collectDeep_service_errors_mem (rs : List ServiceResponse)
    (r : ServiceResponse) (hr : r ∈ rs) (he : r.error = none)
    (e : GraphQLError) (hee : e ∈ r.errors) : e ∈ (collectDeep rs).1 := by
  induction rs with
  | nil => cases hr
  | cons x rest ih =>
    rcases List.mem_cons.mp hr with rfl | hr'
    · rcases hd : r.data with _ | d <;> simp [collectDeep, he, hd, hee]
    · have hmem := ih hr'
      rcases hx : x.error with _ | m
      · rcases hd : x.data with _ | d <;>
          simp [collectDeep, hx, hd, List.mem_append, hmem]
      · simp [collectDeep, hx, hmem]

/-- C4: when every response either carries a transport-level error or has nil
data, `mergeDeep` merges zero valid responses: it succeeds with `data = none`
(a null data payload) and its error list carries every transport failure (as
a `SERVICE_ERROR` entry naming the service) and every service-returned
GraphQL error, so the failures surface as top-level errors. -/
theorem mergeDeep_zero_valid_null_data (cfg : MergerConfig)
    (plan : Option ExecutionPlan) (rs : List ServiceResponse)
    (h : ∀ r ∈ rs, r.error ≠ none ∨ r.data = none) :
    ∃ resp, mergeDeep cfg rs plan = .ok resp ∧ resp.data = none ∧
      (∀ r ∈ rs, ∀ msg, r.error = some msg →
        serviceGraphQLError r.service msg ∈ resp.errors) ∧
      (∀ r ∈ rs, r.error = none → ∀ e ∈ r.errors, e ∈ resp.errors) := by
  have hv : (collectDeep rs).2 = [] := collectDeep_valid_nil rs h
  refine ⟨{ data := none, errors := (collectDeep rs).1, extensions := some [] },
    ?_, rfl, ?_, ?_⟩
  · rcases hcd : collectDeep rs with ⟨allE, valid⟩
    have : valid = [] := by rw [hcd] at hv; exact hv
    subst this
    simp [mergeDeep, hcd]
  · intro r hr msg he
    exact collectDeep_transport_mem rs r hr msg he
  · intro r hr he e hee
    exact collectDeep_service_errors_mem rs r hr he e hee

/-- Concrete responses for the C4 witness: one transport failure, one
response with nil data and a service-returned error. -/
def respDownSvc : ServiceResponse :=
  { data := none, errors := [], metadata := none, service := "down-svc",
    latencyStr := "", error := some "connection refused", headers := none }

/-- Nil-data response carrying one service-returned GraphQL error. -/
def respNilData : ServiceResponse :=
  { data := none, errors := [{ message := "bad thing", extensions := none }],
    metadata := none, service := "svc-two", latencyStr := "", error := none,
    headers := none }

/-- Witness for C4 at a concrete all-invalid response list. -/
theorem mergeDeep_zero_valid_null_data_witness :
    ∃ resp, mergeDeep DefaultMergerConfig [respDownSvc, respNilData] none =
        .ok resp ∧ resp.data = none ∧
      (∀ r ∈ [respDownSvc, respNilData], ∀ msg, r.error = some msg →
        serviceGraphQLError r.service msg ∈ resp.errors) ∧
      (∀ r ∈ [respDownSvc, respNilData], r.error = none →
        ∀ e ∈ r.errors, e ∈ resp.errors) :=
  mergeDeep_zero_valid_null_data DefaultMergerConfig none
    [respDownSvc, respNilData]
    (by
      intro r hr
      rcases List.mem_cons.mp hr with rfl | hr'
      · exact Or.inl (by simp [respDownSvc])
      · rcases List.mem_cons.mp hr' with rfl | hr''
        · exact Or.inr rfl
        · cases hr'')

/-! Lemmas computing `mergeObjects` on collision-free field lists. -/

theorem mergeObjectsInner_fresh (fuel : Nat) (cfg : MergerConfig) (depth : Nat) :
    ∀ (fields acc : List (String × GoValue)),
      ((acc ++ fields).map Prod.fst).Nodup →
      mergeObjectsInner fuel cfg fields depth acc = .ok (acc ++ fields) := by
  intro fields
  induction fields with
  | nil => intro acc _; simp [mergeObjectsInner]
  | cons kv rest ih =>
    intro acc hn
    have hdisj : List.Disjoint ((acc.map Prod.fst))
        (kv.1 :: rest.map Prod.fst) := by
      simp only [List.map_append, List.map_cons, List.nodup_append] at hn
      exact hn.2.2
    have hfresh : lookupA acc kv.1 = none := by
      rw [lookupA_eq_none_iff]
      intro p hp hcontra
      exact hdisj (hcontra ▸ List.mem_map_of_mem Prod.fst hp) (List.mem_cons_self _ _)
    obtain ⟨k, v⟩ := kv
    simp only [mergeObjectsInner, hfresh]
    rw [putA_of_lookupA_none _ hfresh, ih (acc ++ [(k, v)]) (by simpa using hn)]
    simp

theorem mergeObjects_two_fresh (fuel : Nat) (cfg : MergerConfig) (depth : Nat)
    (u1 u2 : List (String × GoValue))
    (hnd : ((u1 ++ u2).map Prod.fst).Nodup) :
    mergeObjects (fuel + 1) cfg [.vobj u1, .vobj u2] depth = .ok (u1 ++ u2) := by
  have h1 : mergeObjectsInner fuel cfg u1 depth [] = .ok u1 := by
    have := mergeObjectsInner_fresh fuel cfg depth u1 []
      (by simpa using (List.nodup_append.mp (by simpa using hnd)).1)
    simpa using this
  have h2 : mergeObjectsInner fuel cfg u2 depth u1 = .ok (u1 ++ u2) :=
    mergeObjectsInner_fresh fuel cfg depth u2 u1 hnd
  simp only [mergeObjects, mergeObjectsOuter, h1, h2]

/-- Deep merge of two responses whose data are single-key objects on the same
key with collision-free unions: the values under the colliding key are merged
key-by-key. -/
theorem mergeDataDeep_two_singleton_objects (cfg : MergerConfig) (i : Nat)
    (k : String) (u1 u2 : List (String × GoValue)) (a b : ServiceResponse)
    (ha : a.data = some (.vobj [(k, .vobj u1)]))
    (hb : b.data = some (.vobj [(k, .vobj u2)]))
    (hnd : ((u1 ++ u2).map Prod.fst).Nodup) (hmd : 1 ≤ cfg.maxDepth) :
    mergeDataDeep (i + 4) cfg [a, b] 0 =
      .ok (some (.vobj [(k, .vobj (u1 ++ u2))])) := by
  have hguard0 : ¬ ((0 : Nat) : Int) > cfg.maxDepth := by omega
  have hguard1 : ¬ ((1 : Nat) : Int) > cfg.maxDepth := by push_cast; omega
  have hfm : List.filterMap ServiceResponse.data [a, b] =
      [.vobj [(k, .vobj u1)], .vobj [(k, .vobj u2)]] := by
    simp [List.filterMap, ha, hb]
  -- the nested merge of the two colliding object values
  have hnested : mergeDataDeep (i + 2) cfg
      [{ data := some (.vobj u1), errors := [], metadata := none,
         service := "", latencyStr := "", error := none, headers := none },
       { data := some (.vobj u2), errors := [], metadata := none,
         service := "", latencyStr := "", error := none, headers := none }]
      1 = .ok (some (.vobj (u1 ++ u2))) := by
    rw [show i + 2 = (i + 1) + 1 from rfl]
    simp only [mergeDataDeep, hguard1]
    norm_num [List.filterMap]
    rw [mergeObjects_two_fresh i cfg 1 u1 u2 hnd]
  -- the inner field loop of the outer object merge
  have hinner2 : mergeObjectsInner (i + 2) cfg [(k, .vobj u2)] 0 [(k, .vobj u1)] =
      .ok [(k, .vobj (u1 ++ u2))] := by
    simp [mergeObjectsInner, lookupA, shouldMergeRecursively, putA, hnested]
  have houter : mergeObjects (i + 3) cfg
      [.vobj [(k, .vobj u1)], .vobj [(k, .vobj u2)]] 0 =
      .ok [(k, .vobj (u1 ++ u2))] := by
    have h1 : mergeObjectsInner (i + 2) cfg [(k, .vobj u1)] 0 [] =
        .ok [(k, .vobj u1)] := by
      simpa using mergeObjectsInner_fresh (i + 2) cfg 0 [(k, .vobj u1)] [] (by simp)
    rw [show i + 3 = (i + 2) + 1 from rfl]
    simp only [mergeObjects, mergeObjectsOuter, h1, hinner2]
  rw [show i + 4 = (i + 3) + 1 from rfl]
  simp only [mergeDataDeep, hguard0, hfm]
  norm_num
  rw [houter]

/-- Core of C7: deep-merging two error-free responses whose data collide on
one key with object values merges those objects key-by-key. -/
theorem mergeDeep_object_collision_core (cfg : MergerConfig)
    (plan : Option ExecutionPlan) (k : String)
    (u1 u2 : List (String × GoValue)) (a b : ServiceResponse)
    (ha : a.data = some (.vobj [(k, .vobj u1)]))
    (hb : b.data = some (.vobj [(k, .vobj u2)]))
    (hae : a.error = none) (hbe : b.error = none)
    (hnd : ((u1 ++ u2).map Prod.fst).Nodup) (hmd : 1 ≤ cfg.maxDepth) :
    ∃ resp, mergeDeep cfg [a, b] plan = .ok resp ∧
      resp.data = some (.vobj [(k, .vobj (u1 ++ u2))]) := by
  obtain ⟨i, hi⟩ : ∃ i, mergeFuel cfg = i + 4 :=
    ⟨4 * cfg.maxDepth.toNat + 12, by unfold mergeFuel; omega⟩
  have hcd : collectDeep [a, b] = (a.errors ++ (b.errors ++ []), [a, b]) := by
    rcases ha' : a.data with _ | av
    · rw [ha'] at ha; cases ha
    · rcases hb' : b.data with _ | bv
      · rw [hb'] at hb; cases hb
      · simp [collectDeep, hae, hbe, ha', hb']
  have hmdd := mergeDataDeep_two_singleton_objects cfg i k u1 u2 a b ha hb hnd hmd
  refine ⟨{ data := some (.vobj [(k, .vobj (u1 ++ u2))])
            errors := MergeErrors (a.errors ++ (b.errors ++ []))
            extensions := some (mergeExtensionsDeep cfg [a, b]) }, ?_, rfl⟩
  rw [mergeDeep, hcd]
  simp only [List.length_cons, List.length_nil]
  rw [if_neg (by omega), hi, hmdd]

/-- Response with nested data a.x = 1. -/
def respNestedX : ServiceResponse :=
  { data := some (.vobj [("a", .vobj [("x", .vint 1)])]), errors := [],
    metadata := none, service := "svc-x", latencyStr := "", error := none,
    headers := none }

/-- Response with nested data a.y = 2. -/
def respNestedY : ServiceResponse :=
  { data := some (.vobj [("a", .vobj [("y", .vint 2)])]), errors := [],
    metadata := none, service := "svc-y", latencyStr := "", error := none,
    headers := none }

/-- C7: whenever two responses collide on a key whose values are both
objects, the deep merger recurses key-by-key (yielding the union of the two
objects' fields, for every conflict policy) instead of applying the scalar
conflict policy; concretely, deep-merging a.x = 1 with a.y = 2 yields
a = (x = 1, y = 2). -/
theorem mergeDeep_recurses_on_object_collision (cfg : MergerConfig)
    (plan : Option ExecutionPlan) (k : String)
    (u1 u2 : List (String × GoValue)) (a b : ServiceResponse)
    (ha : a.data = some (.vobj [(k, .vobj u1)]))
    (hb : b.data = some (.vobj [(k, .vobj u2)]))
    (hae : a.error = none) (hbe : b.error = none)
    (hnd : ((u1 ++ u2).map Prod.fst).Nodup) (hmd : 1 ≤ cfg.maxDepth) :
    (∃ resp, mergeDeep cfg [a, b] plan = .ok resp ∧
      resp.data = some (.vobj [(k, .vobj (u1 ++ u2))])) ∧
    (∃ resp, MergeResponses DefaultMergerConfig [respNestedX, respNestedY]
        (some { subQueries := [], dependencies := [],
                mergeStrategy := MergeStrategyDeep }) = .ok resp ∧
      resp.data = some (.vobj [("a", .vobj [("x", .vint 1), ("y", .vint 2)])])) := by
  constructor
  · exact mergeDeep_object_collision_core cfg plan k u1 u2 a b ha hb hae hbe hnd hmd
  · obtain ⟨resp, hresp, hdata⟩ := mergeDeep_object_collision_core
      DefaultMergerConfig
      (some { subQueries := [], dependencies := [],
              mergeStrategy := MergeStrategyDeep })
      "a" [("x", .vint 1)] [("y", .vint 2)] respNestedX respNestedY
      rfl rfl rfl rfl (by simp) (by norm_num [DefaultMergerConfig])
    refine ⟨resp, ?_, hdata⟩
    rw [MergeResponses, if_neg (by simp), Option.getD, if_pos rfl]
    exact hresp

/-- Witness for C7 at the concrete nested objects of the spec example. -/
theorem mergeDeep_recurses_on_object_collision_witness :
    (∃ resp, mergeDeep DefaultMergerConfig [respNestedX, respNestedY] none =
        .ok resp ∧
      resp.data = some (.vobj [("a", .vobj
        ([("x", .vint 1)] ++ [("y", .vint 2)]))])) ∧
    (∃ resp, MergeResponses DefaultMergerConfig [respNestedX, respNestedY]
        (some { subQueries := [], dependencies := [],
                mergeStrategy := MergeStrategyDeep }) = .ok resp ∧
      resp.data = some (.vobj [("a", .vobj [("x", .vint 1), ("y", .vint 2)])])) :=
  mergeDeep_recurses_on_object_collision DefaultMergerConfig none "a"
    [("x", .vint 1)] [("y", .vint 2)] respNestedX respNestedY
    rfl rfl rfl rfl (by simp) (by norm_num [DefaultMergerConfig])

/-! Entity-resolver embedding (pkg/federation/entity_resolver.go). -/

/-- Rendering of `err.Error()` for the model's error values (a
`FederationError` renders as `[CODE] message`, a plain error as its
message). -/
def GoErr.message : GoErr → String
  | .fed c m => "[" ++ c ++ "] " ++ m
  | .plain m => m

/-- `types.KeyDirective`: the `fields` selection string of one `@key`. -/
structure KeyDirective where
  fields : String
  resolvable : Bool

/-- `types.EntityDirectives`, restricted to the `Keys` list (the only
directive field the embedded entity-resolver functions read). -/
structure EntityDirectives where
  keys : List KeyDirective

/-- `types.FederatedEntity`, restricted to the fields the embedded functions
read. -/
structure FederatedEntity where
  typeName : String
  serviceName : String
  directives : EntityDirectives

/-- `types.RepresentationRequest`: `__typename` plus the key-field map. -/
structure RepresentationRequest where
  typeName : String
  representation : List (String × GoValue)

/-- Character loop of `strings.Fields`: accumulate the current word
(reversed) and emit it at each whitespace run or at the end. -/
def stringsFieldsGo : List Char → List Char → List String
  | [], [] => []
  | [], acc => [String.mk acc.reverse]
  | c :: rest, acc =>
    if c.isWhitespace then
      match acc with
      | [] => stringsFieldsGo rest []
      | _ => String.mk acc.reverse :: stringsFieldsGo rest []
    else stringsFieldsGo rest (c :: acc)

/-- Go `strings.Fields`: split around runs of whitespace, no empty parts. -/
def stringsFields (s : String) : List String :=
  stringsFieldsGo s.data []

/-- `parseFieldSelection` (entity_resolver.go): split the `@key` field
selection on whitespace, keeping non-empty parts (the loop's guard repeats
what `strings.Fields` already guarantees). -/
def parseFieldSelection (fields : String) : List String :=
  (stringsFields fields).filter (· ≠ "")

/-- First-occurrence de-duplication of strings (the effect of collecting into
a Go `map[string]bool` and iterating; the model fixes first-insertion
order). -/
def dedupStrLoop (seen : List String) : List String → List String
  | [] => []
  | x :: rest =>
    if x ∈ seen then dedupStrLoop seen rest
    else x :: dedupStrLoop (x :: seen) rest

/-- `validateKeyFields` (entity_resolver.go): collect the union of all `@key`
field names and fail on the first one missing from the representation. -/
def validateKeyFields (entity : FederatedEntity)
    (representation : List (String × GoValue)) : Except GoErr Unit :=
  let requiredKeys := dedupStrLoop []
    (entity.directives.keys.flatMap fun kd => parseFieldSelection kd.fields)
  match requiredKeys.find? (fun f => (lookupA representation f).isNone) with
  | some f => .error (.plain ("missing required key field: " ++ f))
  | none => .ok ()

/-- `ValidateRepresentation` (entity_resolver.go): nil-entity and typename
checks, then key-field validation (whose failure is wrapped as a plain
`fmt.Errorf`, not a `ValidationError`). -/
def ValidateRepresentation (entity : Option FederatedEntity)
    (representation : RepresentationRequest) : Except GoErr Unit :=
  match entity with
  | none => .error (NewValidationError "entity cannot be nil")
  | some entity =>
    if representation.typeName = "" then
      .error (NewValidationError "representation typename cannot be empty")
    else if representation.typeName ≠ entity.typeName then
      .error (.plain ("representation typename " ++ representation.typeName ++
        " does not match entity typename " ++ entity.typeName))
    else
      match validateKeyFields entity representation.representation with
      | .error e => .error (.plain ("key field validation failed: " ++ e.message))
      | .ok () => .ok ()

/-- A field name occurring in at least one `@key` directive of the entity. -/
def isEntityKeyField (entity : FederatedEntity) (f : String) : Prop :=
  ∃ kd ∈ entity.directives.keys, f ∈ parseFieldSelection kd.fields

theorem dedupStrLoop_mem (l : List String) :
    ∀ seen k, k ∈ dedupStrLoop seen l ↔ (k ∈ l ∧ k ∉ seen) := by
  induction l with
  | nil => simp [dedupStrLoop]
  | cons x rest ih =>
    intro seen k
    by_cases h : x ∈ seen
    · rw [dedupStrLoop, if_pos h, ih]
      simp only [List.mem_cons]
      constructor
      · rintro ⟨hk, hns⟩
        exact ⟨Or.inr hk, hns⟩
      · rintro ⟨rfl | hk, hns⟩
        · exact absurd h hns
        · exact ⟨hk, hns⟩
    · rw [dedupStrLoop, if_neg h]
      simp only [List.mem_cons, ih]
      constructor
      · rintro (rfl | ⟨hk, hns⟩)
        · exact ⟨Or.inl rfl, h⟩
        · exact ⟨Or.inr hk, fun hs => hns (Or.inr hs)⟩
      · rintro ⟨rfl | hk, hns⟩
        · exact Or.inl rfl
        · by_cases hke : k = x
          · exact Or.inl hke
          · exact Or.inr ⟨hk, by simp [hke, hns]⟩

/-- Entity `Product` owning key field `id` (for C6 examples). -/
def entityProductC6 : FederatedEntity :=
  { typeName := "Product", serviceName := "products",
    directives := { keys := [{ fields := "id", resolvable := true }] } }

/-- Representation for `Product` missing its `id` key field. -/
def reprMissingIdC6 : RepresentationRequest :=
  { typeName := "Product", representation := [] }

/-- Representation for `Product` carrying its `id` key field. -/
def reprWithIdC6 : RepresentationRequest :=
  { typeName := "Product", representation := [("id", .vstr "p-1")] }

/-- Counterexample to C6 as stated: a representation missing a key field is
rejected, but the rejection is a plain wrapped `fmt.Errorf` (empty federation
code), not a `ValidationError`-coded `FederationError` as the claim says. -/
theorem validateRepresentation_not_validation_error_cex :
    ValidateRepresentation (some entityProductC6) reprMissingIdC6 =
      .error (.plain "key field validation failed: missing required key field: id") ∧
    (GoErr.plain
        "key field validation failed: missing required key field: id").code ≠
      ErrCodeValidation := by
  exact ⟨rfl, by decide⟩

/-- C6 (amended): a representation whose `__typename` matches its entity and
which contains every field named in at least one of the entity's `@key`
directives passes `ValidateRepresentation`; a representation missing any such
key field is rejected with an error (a plain wrapped error, not a
`ValidationError`-coded one). -/
theorem validateRepresentation_key_fields (entity : FederatedEntity)
    (repr : RepresentationRequest)
    (hty : repr.typeName = entity.typeName) (hne : entity.typeName ≠ "") :
    ((∀ f, isEntityKeyField entity f → (lookupA repr.representation f).isSome) →
      ValidateRepresentation (some entity) repr = .ok ()) ∧
    (∀ f, isEntityKeyField entity f → lookupA repr.representation f = none →
      ∃ e, ValidateRepresentation (some entity) repr = .error e) := by
  have hrne : ¬ repr.typeName = "" := by rw [hty]; exact hne
  have hrty : ¬ repr.typeName ≠ entity.typeName := not_not.mpr hty
  constructor
  · intro hall
    have hfind : (dedupStrLoop []
        (entity.directives.keys.flatMap fun kd => parseFieldSelection kd.fields)).find?
          (fun f => (lookupA repr.representation f).isNone) = none := by
      rw [List.find?_eq_none]
      intro x hx
      have hxkey : isEntityKeyField entity x := by
        have := (dedupStrLoop_mem _ [] x).mp hx
        simpa [isEntityKeyField, List.mem_flatMap] using this.1
      have := hall x hxkey
      rcases hlk : lookupA repr.representation x with _ | v
      · rw [hlk] at this; cases this
      · simp [hlk]
    rw [ValidateRepresentation, if_neg hrne, if_neg hrty, validateKeyFields]
    rw [hfind]
  · intro f hf hmiss
    have hmem : f ∈ dedupStrLoop []
        (entity.directives.keys.flatMap fun kd => parseFieldSelection kd.fields) := by
      rw [dedupStrLoop_mem]
      refine ⟨?_, by simp⟩
      rw [List.mem_flatMap]
      obtain ⟨kd, hkd, hmemf⟩ := hf
      exact ⟨kd, hkd, hmemf⟩
    have hsome : ((dedupStrLoop []
        (entity.directives.keys.flatMap fun kd => parseFieldSelection kd.fields)).find?
          (fun f => (lookupA repr.representation f).isNone)).isSome := by
      rw [List.find?_isSome]
      exact ⟨f, hmem, by simp [hmiss]⟩
    rcases hfind : (dedupStrLoop []
        (entity.directives.keys.flatMap fun kd => parseFieldSelection kd.fields)).find?
          (fun f => (lookupA repr.representation f).isNone) with _ | g
    · rw [hfind] at hsome; cases hsome
    · refine ⟨.plain ("key field validation failed: missing required key field: " ++ g), ?_⟩
      rw [ValidateRepresentation, if_neg hrne, if_neg hrty, validateKeyFields]
      rw [hfind]
      rfl

/-- Witness for C6 at the `Product`/`id` example: the complete representation
passes, the one missing `id` is rejected. -/
theorem validateRepresentation_key_fields_witness :
    ValidateRepresentation (some entityProductC6) reprWithIdC6 = .ok () ∧
    (∃ e, ValidateRepresentation (some entityProductC6) reprMissingIdC6 =
      .error e) := by
  constructor
  · refine (validateRepresentation_key_fields entityProductC6 reprWithIdC6 rfl
      (by decide)).1 ?_
    intro f hf
    obtain ⟨kd, hkd, hmemf⟩ := hf
    have hkd' : kd = { fields := "id", resolvable := true } := by
      simpa [entityProductC6] using hkd
    subst hkd'
    have hps : parseFieldSelection "id" = ["id"] := rfl
    rw [hps] at hmemf
    have : f = "id" := by simpa using hmemf
    subst this
    rfl
  · exact (validateRepresentation_key_fields entityProductC6 reprMissingIdC6 rfl
      (by decide)).2 "id"
      ⟨{ fields := "id", resolvable := true }, by simp [entityProductC6],
        by rw [show parseFieldSelection "id" = ["id"] from rfl]; simp⟩
      rfl

/-! Query-analyzer embedding (the parser's depth/complexity calculation). -/

/-- `ast.SelectionKind` of the GraphQL AST library. -/
inductive SelKind where
  | field : SelKind
  | inlineFragment : SelKind
  | fragmentSpread : SelKind

/-- One selection: its kind and the index into the kind's node array. -/
structure Selection where
  kind : SelKind
  ref : Nat

/-- The slices of `ast.Document` the depth/complexity walk reads: selection
sets (lists of selection refs), selections, and the selection-set reference
of each field / inline fragment (`none` models `-1`).  An out-of-range index
(which would panic in Go) is modelled as a selection with no sub-selections. -/
structure Document where
  selectionSets : List (List Nat)
  selections : List Selection
  fields : List (Option Nat)
  inlineFragments : List (Option Nat)

mutual

/-- `calculateDepthWithVisited` (parser): nesting depth of a selection set,
with the per-branch visited set and the hard ceiling of 50.  `fuel` bounds
the recursion depth of the model; the wrapper `calculateDepth` supplies fuel
that is proved sufficient, so `none` (fuel exhaustion) never occurs. -/
def calculateDepthWithVisited (doc : Document) :
    Nat → Option Nat → Nat → List Nat → Option Nat
  | 0, _, _, _ => none
  | _ + 1, none, currentDepth, _ => some currentDepth
  | fuel + 1, some s, currentDepth, visited =>
    if s ∈ visited then some currentDepth
    else if currentDepth > 50 then some currentDepth
    else
      calcDepthSelections doc fuel (doc.selectionSets.getD s []) currentDepth
        (s :: visited) currentDepth

/-- Loop of `calculateDepthWithVisited` over one selection set's refs,
accumulating the maximum depth. -/
def calcDepthSelections (doc : Document) (fuel : Nat) :
    List Nat → Nat → List Nat → Nat → Option Nat
  | [], _, _, maxDepth => some maxDepth
  | selectionRef :: rest, currentDepth, visited, maxDepth =>
    let selection := doc.selections.getD selectionRef ⟨.fragmentSpread, 0⟩
    match selection.kind with
    | .field =>
      match doc.fields.getD selection.ref none with
      | some fieldSS =>
        match calculateDepthWithVisited doc fuel (some fieldSS)
            (currentDepth + 1) visited with
        | some depth =>
          calcDepthSelections doc fuel rest currentDepth visited
            (max maxDepth depth)
        | none => none
      | none => calcDepthSelections doc fuel rest currentDepth visited maxDepth
    | .inlineFragment =>
      match doc.inlineFragments.getD selection.ref none with
      | some inlineSS =>
        match calculateDepthWithVisited doc fuel (some inlineSS)
            currentDepth visited with
        | some depth =>
          calcDepthSelections doc fuel rest currentDepth visited
            (max maxDepth depth)
        | none => none
      | none => calcDepthSelections doc fuel rest currentDepth visited maxDepth
    | .fragmentSpread =>
      calcDepthSelections doc fuel rest currentDepth visited maxDepth

end

mutual

/-- `calculateComplexityWithVisited` (parser): unit cost per field plus
recursive sub-costs, with the same per-branch visited set. -/
def calculateComplexityWithVisited (doc : Document) :
    Nat → Option Nat → List Nat → Option Nat
  | 0, _, _ => none
  | _ + 1, none, _ => some 0
  | fuel + 1, some s, visited =>
    if s ∈ visited then some 0
    else
      calcComplexitySelections doc fuel (doc.selectionSets.getD s [])
        (s :: visited) 0

/-- Loop of `calculateComplexityWithVisited` over one selection set. -/
def calcComplexitySelections (doc : Document) (fuel : Nat) :
    List Nat → List Nat → Nat → Option Nat
  | [], _, complexity => some complexity
  | selectionRef :: rest, visited, complexity =>
    let selection := doc.selections.getD selectionRef ⟨.fragmentSpread, 0⟩
    match selection.kind with
    | .field =>
      match doc.fields.getD selection.ref none with
      | some fieldSS =>
        match calculateComplexityWithVisited doc fuel (some fieldSS) visited with
        | some sub =>
          calcComplexitySelections doc fuel rest visited (complexity + 1 + sub)
        | none => none
      | none => calcComplexitySelections doc fuel rest visited (complexity + 1)
    | .inlineFragment =>
      match doc.inlineFragments.getD selection.ref none with
      | some inlineSS =>
        match calculateComplexityWithVisited doc fuel (some inlineSS) visited with
        | some sub => calcComplexitySelections doc fuel rest visited (complexity + sub)
        | none => none
      | none => calcComplexitySelections doc fuel rest visited complexity
    | .fragmentSpread => calcComplexitySelections doc fuel rest visited complexity

end

/-- `calculateDepth` (parser): fresh visited set; the fuel
`selectionSets.length + 1` bounds the recursion depth, which the visited set
keeps below the number of distinct selection sets. -/
def calculateDepth (doc : Document) (selectionSet : Option Nat)
    (currentDepth : Nat) : Option Nat :=
  calculateDepthWithVisited doc (doc.selectionSets.length + 1) selectionSet
    currentDepth []

/-- `calculateComplexity` (parser): fresh visited set, same fuel bound. -/
def calculateComplexity (doc : Document) (selectionSet : Option Nat) :
    Option Nat :=
  calculateComplexityWithVisited doc (doc.selectionSets.length + 1)
    selectionSet []

/-- Number of selection sets not yet on the visiting stack. -/
def unvisitedCount (doc : Document) (visited : List Nat) : Nat :=
  ((List.range doc.selectionSets.length).filter (fun s => s ∉ visited)).length

theorem unvisitedCount_cons (doc : Document) (s : Nat) (visited : List Nat)
    (hs : s < doc.selectionSets.length) (hnv : s ∉ visited) :
    unvisitedCount doc (s :: visited) + 1 = unvisitedCount doc visited := by
  unfold unvisitedCount
  have hfilter : (List.range doc.selectionSets.length).filter
      (fun x => x ∉ (s :: visited)) =
      ((List.range doc.selectionSets.length).filter (fun x => x ∉ visited)).filter
        (fun x => x ≠ s) := by
    rw [List.filter_filter]
    apply List.filter_congr
    intro x _
    by_cases hx : x = s <;> by_cases hv : x ∈ visited <;> simp [hx, hv, hnv]
  have hmem : s ∈ (List.range doc.selectionSets.length).filter
      (fun x => x ∉ visited) := by
    simp [List.mem_filter, List.mem_range, hs, hnv]
  have hnd : ((List.range doc.selectionSets.length).filter
      (fun x => x ∉ visited)).Nodup :=
    (List.nodup_range _).filter _
  have herase : ((List.range doc.selectionSets.length).filter
      (fun x => x ∉ visited)).filter (fun x => x ≠ s) =
      ((List.range doc.selectionSets.length).filter (fun x => x ∉ visited)).erase s := by
    rw [hnd.erase_eq_filter]
    apply List.filter_congr
    intro x _
    by_cases hx : x = s
    · subst hx; simp
    · simp [hx]
  have hpos : 0 < ((List.range doc.selectionSets.length).filter
      (fun x => x ∉ visited)).length :=
    List.length_pos.mpr (List.ne_nil_of_mem hmem)
  rw [hfilter, herase, List.length_erase_of_mem hmem]
  omega

theorem calcDepth_total (fuel : Nat) :
    (∀ doc ss cur visited, unvisitedCount doc visited < fuel →
      (calculateDepthWithVisited doc fuel ss cur visited).isSome) ∧
    (∀ doc refs cur visited maxd, unvisitedCount doc visited < fuel →
      (calcDepthSelections doc fuel refs cur visited maxd).isSome) := by
  induction fuel with
  | zero =>
    exact ⟨fun doc ss cur visited h => absurd h (by omega),
           fun doc refs cur visited maxd h => absurd h (by omega)⟩
  | succ fuel ih =>
    have hF : ∀ doc ss cur visited, unvisitedCount doc visited < fuel + 1 →
        (calculateDepthWithVisited doc (fuel + 1) ss cur visited).isSome := by
      intro doc ss cur visited hlt
      rcases ss with _ | s
      · simp [calculateDepthWithVisited]
      · rw [calculateDepthWithVisited]
        by_cases hmem : s ∈ visited
        · simp [hmem]
        · by_cases hcur : cur > 50
          · simp [hmem, hcur]
          · rw [if_neg hmem, if_neg hcur]
            by_cases hrange : s < doc.selectionSets.length
            · have hdec := unvisitedCount_cons doc s visited hrange hmem
              exact ih.2 doc _ cur (s :: visited) cur (by omega)
            · rw [List.getD_eq_default _ _ (by omega)]
              simp [calcDepthSelections]
    refine ⟨hF, ?_⟩
    intro doc refs cur visited maxd hlt
    induction refs generalizing maxd with
    | nil => simp [calcDepthSelections]
    | cons r rest ihr =>
      rcases hsel : doc.selections.getD r ⟨.fragmentSpread, 0⟩ with ⟨kind, ref⟩
      cases kind with
      | field =>
        rcases hf : doc.fields.getD ref none with _ | fss
        · simp only [calcDepthSelections, hsel, hf]
          exact ihr maxd
        · obtain ⟨dep, hdep⟩ := Option.isSome_iff_exists.mp
            (hF doc (some fss) (cur + 1) visited hlt)
          simp only [calcDepthSelections, hsel, hf, hdep]
          exact ihr (max maxd dep)
      | inlineFragment =>
        rcases hf : doc.inlineFragments.getD ref none with _ | iss
        · simp only [calcDepthSelections, hsel, hf]
          exact ihr maxd
        · obtain ⟨dep, hdep⟩ := Option.isSome_iff_exists.mp
            (hF doc (some iss) cur visited hlt)
          simp only [calcDepthSelections, hsel, hf, hdep]
          exact ihr (max maxd dep)
      | fragmentSpread =>
        simp only [calcDepthSelections, hsel]
        exact ihr maxd

theorem calcDepth_bounded (fuel : Nat) :
    (∀ doc ss cur visited d,
      calculateDepthWithVisited doc fuel ss cur visited = some d →
      d ≤ max cur 51) ∧
    (∀ doc refs cur visited maxd d, cur ≤ 50 → maxd ≤ max cur 51 →
      calcDepthSelections doc fuel refs cur visited maxd = some d →
      d ≤ max cur 51) := by
  induction fuel with
  | zero =>
    constructor
    · intro doc ss cur visited d h
      simp [calculateDepthWithVisited] at h
    · intro doc refs cur visited maxd d hcur hmaxd h
      induction refs generalizing maxd with
      | nil =>
        simp only [calcDepthSelections, Option.some.injEq] at h
        omega
      | cons r rest ihr =>
        rcases hsel : doc.selections.getD r ⟨.fragmentSpread, 0⟩ with ⟨kind, ref⟩
        cases kind with
        | field =>
          rcases hf : doc.fields.getD ref none with _ | fss
          · simp only [calcDepthSelections, hsel, hf] at h
            exact ihr maxd hmaxd h
          · simp only [calcDepthSelections, hsel, hf,
              calculateDepthWithVisited] at h
            cases h
        | inlineFragment =>
          rcases hf : doc.inlineFragments.getD ref none with _ | iss
          · simp only [calcDepthSelections, hsel, hf] at h
            exact ihr maxd hmaxd h
          · simp only [calcDepthSelections, hsel, hf,
              calculateDepthWithVisited] at h
            cases h
        | fragmentSpread =>
          simp only [calcDepthSelections, hsel] at h
          exact ihr maxd hmaxd h
  | succ fuel ih =>
    have hF : ∀ doc ss cur visited d,
        calculateDepthWithVisited doc (fuel + 1) ss cur visited = some d →
        d ≤ max cur 51 := by
      intro doc ss cur visited d h
      rcases ss with _ | s
      · simp only [calculateDepthWithVisited, Option.some.injEq] at h
        omega
      · rw [calculateDepthWithVisited] at h
        by_cases hmem : s ∈ visited
        · rw [if_pos hmem] at h
          cases h
          omega
        · rw [if_neg hmem] at h
          by_cases hcur : cur > 50
          · rw [if_pos hcur] at h
            cases h
            omega
          · rw [if_neg hcur] at h
            exact ih.2 doc _ cur (s :: visited) cur d (by omega) (by omega) h
    refine ⟨hF, ?_⟩
    intro doc refs cur visited maxd d hcur hmaxd h
    induction refs generalizing maxd with
    | nil =>
      simp only [calcDepthSelections, Option.some.injEq] at h
      omega
    | cons r rest ihr =>
      rcases hsel : doc.selections.getD r ⟨.fragmentSpread, 0⟩ with ⟨kind, ref⟩
      cases kind with
      | field =>
        rcases hf : doc.fields.getD ref none with _ | fss
        · simp only [calcDepthSelections, hsel, hf] at h
          exact ihr maxd hmaxd h
        · rcases hdep : calculateDepthWithVisited doc (fuel + 1) (some fss)
              (cur + 1) visited with _ | dep
          · simp only [calcDepthSelections, hsel, hf, hdep] at h
            cases h
          · simp only [calcDepthSelections, hsel, hf, hdep] at h
            have hle := hF doc (some fss) (cur + 1) visited dep hdep
            exact ihr (max maxd dep) (by omega) h
      | inlineFragment =>
        rcases hf : doc.inlineFragments.getD ref none with _ | iss
        · simp only [calcDepthSelections, hsel, hf] at h
          exact ihr maxd hmaxd h
        · rcases hdep : calculateDepthWithVisited doc (fuel + 1) (some iss)
              cur visited with _ | dep
          · simp only [calcDepthSelections, hsel, hf, hdep] at h
            cases h
          · simp only [calcDepthSelections, hsel, hf, hdep] at h
            have hle := hF doc (some iss) cur visited dep hdep
            exact ihr (max maxd dep) (by omega) h
      | fragmentSpread =>
        simp only [calcDepthSelections, hsel] at h
        exact ihr maxd hmaxd h

theorem calcComplexity_total (fuel : Nat) :
    (∀ doc ss visited, unvisitedCount doc visited < fuel →
      (calculateComplexityWithVisited doc fuel ss visited).isSome) ∧
    (∀ doc refs visited c, unvisitedCount doc visited < fuel →
      (calcComplexitySelections doc fuel refs visited c).isSome) := by
  induction fuel with
  | zero =>
    exact ⟨fun doc ss visited h => absurd h (by omega),
           fun doc refs visited c h => absurd h (by omega)⟩
  | succ fuel ih =>
    have hF : ∀ doc ss visited, unvisitedCount doc visited < fuel + 1 →
        (calculateComplexityWithVisited doc (fuel + 1) ss visited).isSome := by
      intro doc ss visited hlt
      rcases ss with _ | s
      · simp [calculateComplexityWithVisited]
      · rw [calculateComplexityWithVisited]
        by_cases hmem : s ∈ visited
        · simp [hmem]
        · rw [if_neg hmem]
          by_cases hrange : s < doc.selectionSets.length
          · have hdec := unvisitedCount_cons doc s visited hrange hmem
            exact ih.2 doc _ (s :: visited) 0 (by omega)
          · rw [List.getD_eq_default _ _ (by omega)]
            simp [calcComplexitySelections]
    refine ⟨hF, ?_⟩
    intro doc refs visited c hlt
    induction refs generalizing c with
    | nil => simp [calcComplexitySelections]
    | cons r rest ihr =>
      rcases hsel : doc.selections.getD r ⟨.fragmentSpread, 0⟩ with ⟨kind, ref⟩
      cases kind with
      | field =>
        rcases hf : doc.fields.getD ref none with _ | fss
        · simp only [calcComplexitySelections, hsel, hf]
          exact ihr (c + 1)
        · obtain ⟨sub, hsub⟩ := Option.isSome_iff_exists.mp
            (hF doc (some fss) visited hlt)
          simp only [calcComplexitySelections, hsel, hf, hsub]
          exact ihr (c + 1 + sub)
      | inlineFragment =>
        rcases hf : doc.inlineFragments.getD ref none with _ | iss
        · simp only [calcComplexitySelections, hsel, hf]
          exact ihr c
        · obtain ⟨sub, hsub⟩ := Option.isSome_iff_exists.mp
            (hF doc (some iss) visited hlt)
          simp only [calcComplexitySelections, hsel, hf, hsub]
          exact ihr (c + sub)
      | fragmentSpread =>
        simp only [calcComplexitySelections, hsel]
        exact ihr c

/-- C3: for every query document — including one whose selection-set
references are self-referential or cyclic — the depth and complexity
calculations terminate (the fuel supplied by `calculateDepth` and
`calculateComplexity`, which over-approximates the recursion depth that the
per-branch visited set allows, is never exhausted) and return bounded
values: the depth from the root is at most 51, one past the hard recursion
ceiling of 50 at which the walk returns the capped value instead of
recursing further. -/
theorem query_analysis_terminates_bounded (doc : Document) (ss : Option Nat) :
    (∃ d, calculateDepth doc ss 0 = some d ∧ d ≤ 51) ∧
    (∃ c, calculateComplexity doc ss = some c) := by
  have hcnt : unvisitedCount doc [] < doc.selectionSets.length + 1 := by
    have hle := List.length_filter_le
      (fun s => decide (s ∉ ([] : List Nat))) (List.range doc.selectionSets.length)
    unfold unvisitedCount
    simp only [List.length_range] at hle
    omega
  constructor
  · have hsome := (calcDepth_total (doc.selectionSets.length + 1)).1 doc ss 0 [] hcnt
    obtain ⟨d, hd⟩ := Option.isSome_iff_exists.mp hsome
    refine ⟨d, hd, ?_⟩
    have := (calcDepth_bounded (doc.selectionSets.length + 1)).1 doc ss 0 [] d hd
    omega
  · have hsome := (calcComplexity_total (doc.selectionSets.length + 1)).1 doc ss [] hcnt
    exact Option.isSome_iff_exists.mp hsome

/-! Execution-coordinator embedding (pkg/federation/engine.go,
`executeSubQueries` / `executePlan`).

Concurrency model: each sub-query's goroutine deterministically either sends
exactly one `ServiceResponse` on the response channel (healthy call, failed
call, unhealthy service) or sends an error on the error channel and no
response (service missing from the configuration).  The collector loop counts
only responses, so it finishes before the deadline exactly when every task
produced a response; otherwise it spins until `queryCtx.Done()` fires and
returns the deadline error, which `executePlan` propagates instead of
merging.  The model captures each task's outcome (`subQueryTask`), the
all-or-deadline collection (`executeSubQueries`, whose second component is
the returned error), and the merge hand-off (`executePlan`); real-time
deadline expiry while all tasks do respond is outside the embedding. -/

/-- `errors.ErrCodeServiceCall` constant. -/
def ErrCodeServiceCall : String := "SERVICE_CALL_ERROR"

/-- `errors.NewServiceError` (pkg/errors/errors.go). -/
def NewServiceError (message : String) : GoErr := .fed ErrCodeServiceCall message

/-- `types.ServiceConfig`, restricted to the `Name` field (the only field the
coordinator's lookup loop compares). -/
structure ServiceConfig where
  name : String

/-- `types.FederationConfig`, restricted to the registered service list. -/
structure FederationConfig where
  services : List ServiceConfig

/-- The external service-call boundary (`types.ServiceCaller`): health check
and call, as a deterministic oracle. -/
structure Caller where
  isHealthy : ServiceConfig → Bool
  call : ServiceConfig → SubQuery → Except String ServiceResponse

/-- Outcome of one sub-query task: `none` when the service is missing from
the configuration (the task sends only to the error channel), otherwise the
`ServiceResponse` sent on the response channel (a synthesized error response
for an unhealthy service or a failed call). -/
def subQueryTask (services : List ServiceConfig) (caller : Caller)
    (sq : SubQuery) : Option ServiceResponse :=
  match services.find? (fun svc => svc.name = sq.serviceName) with
  | none => none
  | some serviceConfig =>
    if caller.isHealthy serviceConfig = false then
      some { data := none, errors := [], metadata := none,
             service := sq.serviceName, latencyStr := "",
             error := some (NewServiceError
               ("service is unhealthy: " ++ sq.serviceName)).message,
             headers := none }
    else
      match caller.call serviceConfig sq with
      | .ok response => some response
      | .error err =>
        some { data := none, errors := [],
               metadata := some [("error_type", .vstr "service_call_error"),
                                 ("query", .vstr sq.query)],
               service := sq.serviceName, latencyStr := "",
               error := some err, headers := none }

/-- `executeSubQueries` (engine.go): all per-task outcomes plus the overall
error — `none` when every task responded (the collector completes), the
deadline error when some task never sends a response. -/
def executeSubQueries (cfg : FederationConfig) (caller : Caller)
    (subQueries : List SubQuery) :
    List (Option ServiceResponse) × Option GoErr :=
  if subQueries.length = 0 then ([], none)
  else
    let outcomes := subQueries.map (subQueryTask cfg.services caller)
    if outcomes.all (·.isSome) then (outcomes, none)
    else (outcomes, some (.plain "context deadline exceeded"))

/-- The response-merging step of `executePlan` (engine.go), wrapping a merge
failure as an execution error. -/
def mergeStepResult (mergerCfg : MergerConfig)
    (responses : List ServiceResponse) (plan : ExecutionPlan) :
    Except GoErr GraphQLResponse :=
  match MergeResponses mergerCfg responses (some plan) with
  | .ok merged => .ok merged
  | .error e => .error (.plain ("response merging failed: " ++ e.message))

/-- `executePlan` (engine.go): run the sub-queries; on an overall error
return it without merging, otherwise merge the collected responses. -/
def executePlan (cfg : FederationConfig) (caller : Caller)
    (mergerCfg : MergerConfig) (plan : ExecutionPlan) :
    Except GoErr GraphQLResponse :=
  match executeSubQueries cfg caller plan.subQueries with
  | (_, some err) => .error err
  | (responses, none) =>
    mergeStepResult mergerCfg (responses.filterMap id) plan

/-- Configuration with no registered services (for the C2 counterexample). -/
def engineCfgNoServices : FederationConfig := { services := [] }

/-- Caller whose services are always healthy and always answer. -/
def callerAllHealthy : Caller :=
  { isHealthy := fun _ => true
    call := fun svc _ =>
      .ok { data := some (.vobj []), errors := [], metadata := none,
            service := svc.name, latencyStr := "", error := none,
            headers := none } }

/-- Sub-query addressed to the `users-service`. -/
def sqUsersC2 : SubQuery :=
  { serviceName := "users-service", query := "query { users }", timeout := 30 }

/-- Plan holding only the users sub-query. -/
def planUsersC2 : ExecutionPlan :=
  { subQueries := [sqUsersC2], dependencies := [],
    mergeStrategy := MergeStrategyShallow }

/-- Counterexample to C2 as stated: with `users-service` absent from the
configuration, its task produces no ServiceResponse at all (no per-service
error response), the collector never completes, and the coordinator aborts
the request with the deadline error instead of proceeding to merging. -/
theorem executeSubQueries_missing_service_aborts_cex :
    executeSubQueries engineCfgNoServices callerAllHealthy [sqUsersC2] =
      ([none], some (.plain "context deadline exceeded")) ∧
    executePlan engineCfgNoServices callerAllHealthy DefaultMergerConfig
      planUsersC2 = .error (.plain "context deadline exceeded") :=
  ⟨rfl, rfl⟩

/-- C2 (amended): when every dispatched sub-query's service is present in the
configuration, each task yields a ServiceResponse — an unhealthy service or a
failed call is captured as a per-service error response rather than a
missing one — the coordinator completes without an overall error, and
`executePlan` always proceeds to response merging on the collected mixed
responses.  A sub-query whose service is missing from the configuration,
however, produces no response and the request aborts with the deadline
error. -/
theorem executeSubQueries_partial_failure_tolerant (cfg : FederationConfig)
    (caller : Caller) (mergerCfg : MergerConfig) (plan : ExecutionPlan)
    (hfound : ∀ sq ∈ plan.subQueries,
      (cfg.services.find? (fun svc => svc.name = sq.serviceName)).isSome) :
    (executeSubQueries cfg caller plan.subQueries).2 = none ∧
    (∀ out ∈ (executeSubQueries cfg caller plan.subQueries).1, out.isSome) ∧
    (∀ sq svc, cfg.services.find? (fun s => s.name = sq.serviceName) = some svc →
      caller.isHealthy svc = false →
      subQueryTask cfg.services caller sq =
        some { data := none, errors := [], metadata := none,
               service := sq.serviceName, latencyStr := "",
               error := some (NewServiceError
                 ("service is unhealthy: " ++ sq.serviceName)).message,
               headers := none }) ∧
    (∀ sq svc err, cfg.services.find? (fun s => s.name = sq.serviceName) = some svc →
      caller.isHealthy svc = true → caller.call svc sq = .error err →
      subQueryTask cfg.services caller sq =
        some { data := none, errors := [],
               metadata := some [("error_type", .vstr "service_call_error"),
                                 ("query", .vstr sq.query)],
               service := sq.serviceName, latencyStr := "",
               error := some err, headers := none }) ∧
    executePlan cfg caller mergerCfg plan =
      mergeStepResult mergerCfg
        (((executeSubQueries cfg caller plan.subQueries).1).filterMap id) plan := by
  have htask : ∀ sq ∈ plan.subQueries,
      (subQueryTask cfg.services caller sq).isSome := by
    intro sq hsq
    obtain ⟨svc, hsvc⟩ := Option.isSome_iff_exists.mp (hfound sq hsq)
    simp only [subQueryTask, hsvc]
    by_cases hh : caller.isHealthy svc = false
    · simp [hh]
    · rw [if_neg hh]
      rcases hc : caller.call svc sq with e | r <;> simp [hc]
  have hall : ∀ out ∈ plan.subQueries.map (subQueryTask cfg.services caller),
      out.isSome := by
    intro out hout
    obtain ⟨sq, hsq, rfl⟩ := List.mem_map.mp hout
    exact htask sq hsq
  have hexec : executeSubQueries cfg caller plan.subQueries =
      (plan.subQueries.map (subQueryTask cfg.services caller), none) := by
    rw [executeSubQueries]
    by_cases hlen : plan.subQueries.length = 0
    · rw [if_pos hlen]
      rw [List.length_eq_zero] at hlen
      simp [hlen]
    · rw [if_neg hlen, if_pos (List.all_eq_true.mpr fun x hx => hall x hx)]
  refine ⟨by rw [hexec], by rw [hexec]; exact hall, ?_, ?_, ?_⟩
  · intro sq svc hsvc hh
    simp only [subQueryTask, hsvc, if_pos hh]
  · intro sq svc err hsvc hh hcall
    simp only [subQueryTask, hsvc, hh, hcall]
    simp
  · rw [executePlan, hexec]

/-- The registered users service. -/
def svcUsersC2 : ServiceConfig := { name := "users-service" }

/-- The registered products service. -/
def svcProductsC2 : ServiceConfig := { name := "products-service" }

/-- Two-service configuration for the C2 witness. -/
def engineCfgTwo : FederationConfig := { services := [svcUsersC2, svcProductsC2] }

/-- Caller for which `products-service` is unhealthy and every call
succeeds. -/
def callerProductsDown : Caller :=
  { isHealthy := fun svc => svc.name != "products-service"
    call := fun svc _ =>
      .ok { data := some (.vobj [("users", .varr [])]), errors := [],
            metadata := none, service := svc.name, latencyStr := "",
            error := none, headers := none } }

/-- Plan fanning out to users and products. -/
def planTwoC2 : ExecutionPlan :=
  { subQueries := [{ serviceName := "users-service",
                     query := "query { users }", timeout := 30 },
                   { serviceName := "products-service",
                     query := "query { products }", timeout := 30 }],
    dependencies := [], mergeStrategy := MergeStrategyShallow }

/-- Witness for C2 (amended) with both services configured and the products
service unhealthy. -/
theorem executeSubQueries_partial_failure_tolerant_witness :
    (executeSubQueries engineCfgTwo callerProductsDown planTwoC2.subQueries).2 =
      none ∧
    (∀ out ∈ (executeSubQueries engineCfgTwo callerProductsDown
        planTwoC2.subQueries).1, out.isSome) ∧
    (∀ sq svc, engineCfgTwo.services.find? (fun s => s.name = sq.serviceName) =
        some svc →
      callerProductsDown.isHealthy svc = false →
      subQueryTask engineCfgTwo.services callerProductsDown sq =
        some { data := none, errors := [], metadata := none,
               service := sq.serviceName, latencyStr := "",
               error := some (NewServiceError
                 ("service is unhealthy: " ++ sq.serviceName)).message,
               headers := none }) ∧
    (∀ sq svc err, engineCfgTwo.services.find?
          (fun s => s.name = sq.serviceName) = some svc →
      callerProductsDown.isHealthy svc = true →
      callerProductsDown.call svc sq = .error err →
      subQueryTask engineCfgTwo.services callerProductsDown sq =
        some { data := none, errors := [],
               metadata := some [("error_type", .vstr "service_call_error"),
                                 ("query", .vstr sq.query)],
               service := sq.serviceName, latencyStr := "",
               error := some err, headers := none }) ∧
    executePlan engineCfgTwo callerProductsDown DefaultMergerConfig planTwoC2 =
      mergeStepResult DefaultMergerConfig
        (((executeSubQueries engineCfgTwo callerProductsDown
          planTwoC2.subQueries).1).filterMap id) planTwoC2 :=
  executeSubQueries_partial_failure_tolerant engineCfgTwo callerProductsDown
    DefaultMergerConfig planTwoC2
    (by
      intro sq hsq
      rcases List.mem_cons.mp hsq with rfl | hsq'
      · decide
      · rcases List.mem_cons.mp hsq' with rfl | hsq''
        · decide
        · cases hsq'')

/-! Planner embedding: Kahn topological sort
(pkg/federation/planner.go `topologicalSort`) and DFS cycle detection
(pkg/planner/planner.go `checkCircularDependencies`), with the supporting
association-list lemmas. -/

/-- A Go `map[string][]string` dependency graph in the list model. -/
abbrev DepGraph : Type := List (String × List String)

/-- Adjacency lookup `graph[node]` (a missing key reads as the empty list,
as in Go). -/
def adj (graph : DepGraph) (node : String) : List String :=
  (lookupA graph node).getD []

/-- Edge relation of a dependency graph: `u → v` when `v` is listed under
`u`. -/
def EdgeG (graph : DepGraph) (u v : String) : Prop := v ∈ adj graph u

theorem lookupA_isSome_iff {α : Type} (l : List (String × α)) (k : String) :
    (lookupA l k).isSome ↔ k ∈ l.map Prod.fst := by
  induction l with
  | nil => simp [lookupA]
  | cons kv rest ih =>
    obtain ⟨k1, v1⟩ := kv
    simp only [lookupA, List.map_cons, List.mem_cons]
    by_cases h : k1 = k
    · simp [h]
    · simp only [if_neg h, ih]
      constructor
      · exact fun hm => Or.inr hm
      · rintro (rfl | hm)
        · exact absurd rfl h
        · exact hm

theorem lookupA_mem {α : Type} {l : List (String × α)} {k : String} {v : α}
    (h : lookupA l k = some v) : (k, v) ∈ l := by
  induction l with
  | nil => cases h
  | cons kv rest ih =>
    obtain ⟨k1, v1⟩ := kv
    simp only [lookupA] at h
    by_cases hk : k1 = k
    · rw [if_pos hk] at h
      cases h
      subst hk
      exact List.mem_cons_self _ _
    · rw [if_neg hk] at h
      exact List.mem_cons_of_mem _ (ih h)

theorem lookupA_of_mem_nodup {α : Type} {l : List (String × α)}
    (hnd : (l.map Prod.fst).Nodup) {k : String} {v : α} (h : (k, v) ∈ l) :
    lookupA l k = some v := by
  induction l with
  | nil => cases h
  | cons kv rest ih =>
    obtain ⟨k1, v1⟩ := kv
    rw [List.map_cons, List.nodup_cons] at hnd
    rcases List.mem_cons.mp h with heq | hmem
    · cases heq
      simp [lookupA]
    · have hk : k1 ≠ k := by
        intro hc
        subst hc
        exact hnd.1 (List.mem_map.mpr ⟨(k1, v), hmem, rfl⟩)
      simp only [lookupA, if_neg hk]
      exact ih hnd.2 hmem

theorem putA_map_fst_of_mem {α : Type} {l : List (String × α)} {k : String}
    (v : α) (h : k ∈ l.map Prod.fst) :
    (putA l k v).map Prod.fst = l.map Prod.fst := by
  induction l with
  | nil => simp at h
  | cons kv rest ih =>
    obtain ⟨k1, v1⟩ := kv
    rw [List.map_cons, List.mem_cons] at h
    by_cases hk : k1 = k
    · simp [putA, hk]
    · rcases h with heq | hmem
      · exact absurd heq.symm hk
      · simp [putA, hk, ih hmem]

theorem lookupA_putA_self {α : Type} (l : List (String × α)) (k : String)
    (v : α) : lookupA (putA l k v) k = some v := by
  induction l with
  | nil => simp [putA, lookupA]
  | cons kv rest ih =>
    by_cases hk : kv.1 = k
    · simp [putA, hk, lookupA]
    · simp [putA, hk, lookupA, ih]

theorem lookupA_putA_ne {α : Type} (l : List (String × α)) (k k' : String)
    (v : α) (h : k ≠ k') : lookupA (putA l k v) k' = lookupA l k' := by
  induction l with
  | nil => simp [putA, lookupA, h]
  | cons kv rest ih =>
    by_cases hk : kv.1 = k
    · simp [putA, hk, lookupA, h, hk ▸ h]
    · simp only [putA, if_neg hk, lookupA]
      by_cases hk' : kv.1 = k' <;> simp [hk', ih]

theorem putA_nodup_fst {α : Type} {l : List (String × α)} (k : String) (v : α)
    (hnd : (l.map Prod.fst).Nodup) : ((putA l k v).map Prod.fst).Nodup := by
  by_cases h : k ∈ l.map Prod.fst
  · rw [putA_map_fst_of_mem v h]
    exact hnd
  · have : lookupA l k = none := by
      rcases hl : lookupA l k with _ | w
      · rfl
      · exact absurd ((lookupA_isSome_iff l k).mp (by simp [hl])) h
    rw [putA_of_lookupA_none v this]
    simp only [List.map_append, List.map_cons, List.map_nil]
    rw [List.nodup_append]
    exact ⟨hnd, List.nodup_singleton _, by simpa using fun hc => h hc⟩

/-- Degree read `inDegree[v]` with Go's zero default. -/
def degOf (m : List (String × Int)) (v : String) : Int :=
  (lookupA m v).getD 0

/-- `inDegree[k]++` (a missing key is created at 1). -/
def incA (m : List (String × Int)) (k : String) : List (String × Int) :=
  putA m k (degOf m k + 1)

/-- `inDegree[k]--` (a missing key is created at -1). -/
def decA (m : List (String × Int)) (k : String) : List (String × Int) :=
  putA m k (degOf m k - 1)

theorem degOf_incA (m : List (String × Int)) (k v : String) :
    degOf (incA m k) v = degOf m v + (if v = k then 1 else 0) := by
  by_cases h : v = k
  · subst h
    simp [incA, degOf, lookupA_putA_self]
  · simp [incA, degOf, lookupA_putA_ne m k v _ (Ne.symm h), h]

theorem degOf_decA (m : List (String × Int)) (k v : String) :
    degOf (decA m k) v = degOf m v - (if v = k then 1 else 0) := by
  by_cases h : v = k
  · subst h
    simp [decA, degOf, lookupA_putA_self]
  · simp [decA, degOf, lookupA_putA_ne m k v _ (Ne.symm h), h]

theorem incA_map_fst_of_mem {m : List (String × Int)} {k : String}
    (h : k ∈ m.map Prod.fst) : (incA m k).map Prod.fst = m.map Prod.fst :=
  putA_map_fst_of_mem _ h

theorem decA_map_fst_of_mem {m : List (String × Int)} {k : String}
    (h : k ∈ m.map Prod.fst) : (decA m k).map Prod.fst = m.map Prod.fst :=
  putA_map_fst_of_mem _ h

/-- Number of edges into `v` from graph entries whose source service has not
been processed yet (counting multiplicity). -/
def occIn (g : DepGraph) (processed : List String) (v : String) : Nat :=
  match g with
  | [] => 0
  | kv :: rest =>
    (if kv.1 ∈ processed then 0 else kv.2.count v) + occIn rest processed v

theorem lookupA_append {α : Type} (l₁ l₂ : List (String × α)) (k : String) :
    lookupA (l₁ ++ l₂) k =
      (match lookupA l₁ k with
       | some v => some v
       | none => lookupA l₂ k) := by
  induction l₁ with
  | nil => simp [lookupA]
  | cons kv rest ih =>
    by_cases h : kv.1 = k <;> simp [lookupA, h, ih]

theorem putA_fst_mem_self {α : Type} (m : List (String × α)) (k : String)
    (x : α) : k ∈ (putA m k x).map Prod.fst :=
  (lookupA_isSome_iff _ _).mp (by simp [lookupA_putA_self])

theorem putA_fst_mem_of_mem {α : Type} {m : List (String × α)} {v : String}
    (k : String) (x : α) (h : v ∈ m.map Prod.fst) :
    v ∈ (putA m k x).map Prod.fst := by
  by_cases hv : k = v
  · subst hv
    exact putA_fst_mem_self m k x
  · refine (lookupA_isSome_iff _ _).mp ?_
    rw [lookupA_putA_ne m k v x hv]
    exact (lookupA_isSome_iff _ _).mpr h

/-- First loop of `buildInDegree`: every graph key gets an in-degree of 0. -/
def buildInDegreeInit (graph : DepGraph) : List (String × Int) :=
  graph.foldl
    (fun m kv => if (lookupA m kv.1).isSome then m else m ++ [(kv.1, 0)]) []

/-- `buildInDegree` (the in-degree computation of `topologicalSort`): zero
for every key, then one increment per edge occurrence. -/
def buildInDegree (graph : DepGraph) : List (String × Int) :=
  graph.foldl (fun m kv => kv.2.foldl incA m) (buildInDegreeInit graph)

/-- Initial queue of `topologicalSort`: the zero-in-degree nodes. -/
def initQueue (inDegree : List (String × Int)) : List String :=
  (inDegree.filter (fun kv => kv.2 = 0)).map Prod.fst

/-- One neighbor update of the Kahn loop: decrement, and enqueue at zero. -/
def processNeighbor (st : List (String × Int) × List String)
    (neighbor : String) : List (String × Int) × List String :=
  let m := decA st.1 neighbor
  if degOf m neighbor = 0 then (m, st.2 ++ [neighbor]) else (m, st.2)

/-- The dequeue loop of `topologicalSort`.  One unit of fuel per dequeue;
`topologicalSort` supplies `inDegree.length + 1`, which the invariants prove
sufficient (each node is enqueued at most once). -/
def kahnLoop (graph : DepGraph) :
    Nat → List String → List (String × Int) → List String →
    Option (List String × List (String × Int))
  | _, [], inDegree, result => some (result, inDegree)
  | 0, _ :: _, _, _ => none
  | fuel + 1, current :: queueRest, inDegree, result =>
    let st := (adj graph current).foldl processNeighbor (inDegree, queueRest)
    kahnLoop graph fuel st.2 st.1 (result ++ [current])

/-- `topologicalSort` (pkg/federation/planner.go): Kahn's algorithm; a result
shorter than the node count signals a circular dependency and returns a
`PlanningError`. -/
def topologicalSort (graph : DepGraph) : Except GoErr (List String) :=
  let inDegree := buildInDegree graph
  let queue := initQueue inDegree
  match kahnLoop graph (inDegree.length + 1) queue inDegree [] with
  | none => .error (.plain "model: fuel exhausted")
  | some (result, inDegreeFinal) =>
    if result.length ≠ inDegreeFinal.length then
      .error (NewPlanningError "circular dependency detected")
    else .ok result

theorem degOf_foldl_incA (L : List String) :
    ∀ (m : List (String × Int)) (v : String),
      degOf (L.foldl incA m) v = degOf m v + (L.count v : Int) := by
  induction L with
  | nil => simp
  | cons x rest ih =>
    intro m v
    rw [List.foldl_cons, ih, degOf_incA]
    by_cases h : v = x
    · subst h
      rw [if_pos rfl, List.count_cons_self]
      push_cast
      ring
    · rw [if_neg h, List.count_cons_of_ne h]
      ring

theorem foldl_incA_fst_mono (L : List String) :
    ∀ (m : List (String × Int)) (v : String), v ∈ m.map Prod.fst →
      v ∈ (L.foldl incA m).map Prod.fst := by
  induction L with
  | nil => intro m v h; simpa using h
  | cons x rest ih =>
    intro m v h
    exact ih (incA m x) v (putA_fst_mem_of_mem x _ h)

theorem foldl_incA_fst_nodup (L : List String) :
    ∀ (m : List (String × Int)), (m.map Prod.fst).Nodup →
      ((L.foldl incA m).map Prod.fst).Nodup := by
  induction L with
  | nil => intro m h; simpa using h
  | cons x rest ih =>
    intro m h
    exact ih (incA m x) (putA_nodup_fst x _ h)

theorem degOf_buildInDegreeInit_fold
    (entries : List (String × List String)) :
    ∀ (m : List (String × Int)), (∀ w, degOf m w = 0) →
      ∀ w, degOf (entries.foldl
        (fun m kv => if (lookupA m kv.1).isSome then m else m ++ [(kv.1, 0)])
        m) w = 0 := by
  induction entries with
  | nil => intro m hm w; exact hm w
  | cons kv rest ih =>
    intro m hm w
    rw [List.foldl_cons]
    by_cases hc : (lookupA m kv.1).isSome
    · rw [if_pos hc]
      exact ih m hm w
    · rw [if_neg hc]
      refine ih _ ?_ w
      intro u
      rw [degOf, lookupA_append]
      rcases hm' : lookupA m u with _ | x
      · by_cases hk : kv.1 = u <;> simp [lookupA, hk]
      · have h0 := hm u
        rw [degOf, hm'] at h0
        simpa using h0

theorem degOf_buildInDegreeInit (graph : DepGraph) (v : String) :
    degOf (buildInDegreeInit graph) v = 0 :=
  degOf_buildInDegreeInit_fold graph [] (fun w => by simp [degOf, lookupA]) v

theorem degOf_buildInDegree_fold (entries : List (String × List String)) :
    ∀ (m : List (String × Int)) (v : String),
      degOf (entries.foldl (fun m kv => kv.2.foldl incA m) m) v =
        degOf m v + (occIn entries [] v : Int) := by
  induction entries with
  | nil => intro m v; simp [occIn]
  | cons kv rest ih =>
    intro m v
    rw [List.foldl_cons, ih, degOf_foldl_incA]
    simp only [occIn, List.not_mem_nil, if_neg (List.not_mem_nil kv.1)]
    push_cast
    ring

theorem buildInDegree_deg (graph : DepGraph) (v : String) :
    degOf (buildInDegree graph) v = (occIn graph [] v : Int) := by
  rw [buildInDegree, degOf_buildInDegree_fold, degOf_buildInDegreeInit]
  ring

theorem buildInDegreeInit_fold_mono (entries : List (String × List String)) :
    ∀ (m : List (String × Int)) (v : String), v ∈ m.map Prod.fst →
      v ∈ (entries.foldl
        (fun m kv => if (lookupA m kv.1).isSome then m else m ++ [(kv.1, 0)])
        m).map Prod.fst := by
  induction entries with
  | nil => intro m v h; simpa using h
  | cons kv rest ih =>
    intro m v h
    rw [List.foldl_cons]
    by_cases hc : (lookupA m kv.1).isSome
    · rw [if_pos hc]
      exact ih m v h
    · rw [if_neg hc]
      exact ih _ v (by simp [h])

theorem buildInDegreeInit_mem (graph : DepGraph) :
    ∀ kv ∈ graph, kv.1 ∈ (buildInDegreeInit graph).map Prod.fst := by
  suffices h : ∀ (entries : List (String × List String))
      (m : List (String × Int)), ∀ kv ∈ entries,
      kv.1 ∈ (entries.foldl
        (fun m kv => if (lookupA m kv.1).isSome then m else m ++ [(kv.1, 0)])
        m).map Prod.fst by
    intro kv hkv
    exact h graph [] kv hkv
  intro entries
  induction entries with
  | nil => intro m kv hkv; cases hkv
  | cons e rest ih =>
    intro m kv hkv
    rw [List.foldl_cons]
    rcases List.mem_cons.mp hkv with rfl | hkv'
    · apply buildInDegreeInit_fold_mono
      by_cases hc : (lookupA m kv.1).isSome
      · rw [if_pos hc]
        exact (lookupA_isSome_iff _ _).mp hc
      · rw [if_neg hc]
        simp
    · exact ih _ kv hkv'

theorem buildInDegree_fold_mono (entries : List (String × List String)) :
    ∀ (m : List (String × Int)) (v : String), v ∈ m.map Prod.fst →
      v ∈ (entries.foldl (fun m kv => kv.2.foldl incA m) m).map Prod.fst := by
  induction entries with
  | nil => intro m v h; simpa using h
  | cons kv rest ih =>
    intro m v h
    rw [List.foldl_cons]
    exact ih _ v (foldl_incA_fst_mono kv.2 m v h)

theorem foldl_incA_fst_self (L : List String) :
    ∀ (m : List (String × Int)) (t : String), t ∈ L →
      t ∈ (L.foldl incA m).map Prod.fst := by
  induction L with
  | nil => intro m t h; cases h
  | cons x rest ih =>
    intro m t h
    rw [List.foldl_cons]
    rcases List.mem_cons.mp h with rfl | h'
    · exact foldl_incA_fst_mono rest _ t (putA_fst_mem_self m t _)
    · exact ih _ t h'

theorem buildInDegree_mem_of_key (graph : DepGraph) {kv : String × List String}
    (hkv : kv ∈ graph) : kv.1 ∈ (buildInDegree graph).map Prod.fst :=
  buildInDegree_fold_mono graph _ kv.1 (buildInDegreeInit_mem graph kv hkv)

theorem buildInDegree_mem_of_target (graph : DepGraph)
    {kv : String × List String} (hkv : kv ∈ graph) {t : String}
    (ht : t ∈ kv.2) : t ∈ (buildInDegree graph).map Prod.fst := by
  suffices h : ∀ (entries : List (String × List String))
      (m : List (String × Int)), ∀ kv ∈ entries, t ∈ kv.2 →
      t ∈ (entries.foldl (fun m kv => kv.2.foldl incA m) m).map Prod.fst by
    exact h graph (buildInDegreeInit graph) kv hkv ht
  intro entries
  induction entries with
  | nil => intro m kv hkv; cases hkv
  | cons e rest ih =>
    intro m kv hkv htkv
    rw [List.foldl_cons]
    rcases List.mem_cons.mp hkv with rfl | hkv'
    · exact buildInDegree_fold_mono rest _ t (foldl_incA_fst_self kv.2 m t htkv)
    · exact ih _ kv hkv' htkv

theorem buildInDegreeInit_nodup (graph : DepGraph) :
    ((buildInDegreeInit graph).map Prod.fst).Nodup := by
  suffices h : ∀ (entries : List (String × List String))
      (m : List (String × Int)), (m.map Prod.fst).Nodup →
      ((entries.foldl
        (fun m kv => if (lookupA m kv.1).isSome then m else m ++ [(kv.1, 0)])
        m).map Prod.fst).Nodup by
    exact h graph [] (by simp)
  intro entries
  induction entries with
  | nil => intro m hm; simpa using hm
  | cons kv rest ih =>
    intro m hm
    rw [List.foldl_cons]
    by_cases hc : (lookupA m kv.1).isSome
    · rw [if_pos hc]
      exact ih m hm
    · rw [if_neg hc]
      refine ih _ ?_
      simp only [List.map_append, List.map_cons, List.map_nil]
      rw [List.nodup_append]
      refine ⟨hm, List.nodup_singleton _, ?_⟩
      intro a ha hb
      rw [List.mem_singleton] at hb
      subst hb
      exact hc ((lookupA_isSome_iff _ _).mpr ha)

theorem buildInDegree_nodup (graph : DepGraph) :
    ((buildInDegree graph).map Prod.fst).Nodup := by
  suffices h : ∀ (entries : List (String × List String))
      (m : List (String × Int)), (m.map Prod.fst).Nodup →
      ((entries.foldl (fun m kv => kv.2.foldl incA m) m).map Prod.fst).Nodup by
    exact h graph _ (buildInDegreeInit_nodup graph)
  intro entries
  induction entries with
  | nil => intro m hm; simpa using hm
  | cons kv rest ih =>
    intro m hm
    rw [List.foldl_cons]
    exact ih _ (foldl_incA_fst_nodup kv.2 m hm)

theorem occIn_notkey (current : String) (processed : List String) (v : String) :
    ∀ (rest : DepGraph), current ∉ rest.map Prod.fst →
      occIn rest (processed ++ [current]) v = occIn rest processed v := by
  intro rest
  induction rest with
  | nil => intro _; rfl
  | cons kv tail ih =>
    intro hmem
    rw [List.map_cons, List.mem_cons] at hmem
    push_neg at hmem
    have hk : kv.1 ≠ current := fun hc => hmem.1 hc.symm
    have hiff : (kv.1 ∈ processed ++ [current]) ↔ kv.1 ∈ processed := by
      rw [List.mem_append, List.mem_singleton]
      exact ⟨fun h => h.elim id (fun hc => absurd hc hk), Or.inl⟩
    simp only [occIn]
    rw [ih hmem.2]
    by_cases hp : kv.1 ∈ processed
    · rw [if_pos (hiff.mpr hp), if_pos hp]
    · rw [if_neg (fun hc => hp (hiff.mp hc)), if_neg hp]

theorem occIn_snoc (g : DepGraph) (hg : (g.map Prod.fst).Nodup)
    (processed : List String) (current : String) (hcur : current ∉ processed)
    (v : String) :
    occIn g (processed ++ [current]) v + (adj g current).count v =
      occIn g processed v := by
  induction g with
  | nil => simp [occIn, adj, lookupA]
  | cons kv rest ih =>
    rw [List.map_cons, List.nodup_cons] at hg
    by_cases hk : kv.1 = current
    · subst hk
      have hadj : adj (kv :: rest) kv.1 = kv.2 := by
        simp [adj, lookupA]
      have hP' : kv.1 ∈ processed ++ [kv.1] := by simp
      simp only [occIn, if_pos hP', if_neg hcur, hadj]
      rw [occIn_notkey kv.1 processed v rest hg.1]
      ring
    · have hadj : adj (kv :: rest) current = adj rest current := by
        simp [adj, lookupA, hk]
      have hiff : (kv.1 ∈ processed ++ [current]) ↔ kv.1 ∈ processed := by
        rw [List.mem_append, List.mem_singleton]
        exact ⟨fun h => h.elim id (fun hc => absurd hc hk), Or.inl⟩
      simp only [occIn, hadj]
      by_cases hp : kv.1 ∈ processed
      · rw [if_pos (hiff.mpr hp), if_pos hp]
        rw [Nat.zero_add, Nat.zero_add]
        exact ih hg.2
      · rw [if_neg (fun hc => hp (hiff.mp hc)), if_neg hp]
        have := ih hg.2
        omega

theorem occIn_pos_of_edge (g : DepGraph) (hg : (g.map Prod.fst).Nodup)
    {u x : String} (he : EdgeG g u x) (processed : List String)
    (hu : u ∉ processed) : 1 ≤ occIn g processed x := by
  induction g with
  | nil => simp [EdgeG, adj, lookupA] at he
  | cons kv rest ih =>
    rw [List.map_cons, List.nodup_cons] at hg
    by_cases hk : kv.1 = u
    · have hadj : adj (kv :: rest) u = kv.2 := by
        subst hk
        simp [adj, lookupA]
      rw [EdgeG, hadj] at he
      have hcount : 1 ≤ kv.2.count x := List.one_le_count_iff.mpr he
      simp only [occIn, hk, if_neg hu]
      omega
    · have hadj : adj (kv :: rest) u = adj rest u := by
        simp [adj, lookupA, hk]
      rw [EdgeG, hadj] at he
      have := ih hg.2 he
      simp only [occIn]
      omega

theorem length_filter_cons_not_mem {U : List String} (hU : U.Nodup)
    {s : String} (hs : s ∈ U) {visited : List String} (hnv : s ∉ visited) :
    (U.filter (fun x => x ∉ (s :: visited))).length + 1 =
      (U.filter (fun x => x ∉ visited)).length := by
  have hfilter : U.filter (fun x => x ∉ (s :: visited)) =
      (U.filter (fun x => x ∉ visited)).filter (fun x => x ≠ s) := by
    rw [List.filter_filter]
    apply List.filter_congr
    intro x _
    by_cases hx : x = s <;> by_cases hv : x ∈ visited <;> simp [hx, hv, hnv]
  have hmem : s ∈ U.filter (fun x => x ∉ visited) := by
    simp [List.mem_filter, hs, hnv]
  have hnd : (U.filter (fun x => x ∉ visited)).Nodup := hU.filter _
  have herase : (U.filter (fun x => x ∉ visited)).filter (fun x => x ≠ s) =
      (U.filter (fun x => x ∉ visited)).erase s := by
    rw [hnd.erase_eq_filter]
    apply List.filter_congr
    intro x _
    by_cases hx : x = s
    · subst hx; simp
    · simp [hx]
  have hpos : 0 < (U.filter (fun x => x ∉ visited)).length :=
    List.length_pos.mpr (List.ne_nil_of_mem hmem)
  rw [hfilter, herase, List.length_erase_of_mem hmem]
  omega

theorem nodup_length_lt {res domain : List String} (hres : res.Nodup)
    (hsub : ∀ x ∈ res, x ∈ domain) (hdom : domain.Nodup) {v : String}
    (hv : v ∈ domain) (hvres : v ∉ res) : res.length < domain.length := by
  have h1 : res.length = res.toFinset.card := (List.toFinset_card_of_nodup hres).symm
  have h2 : domain.length = domain.toFinset.card :=
    (List.toFinset_card_of_nodup hdom).symm
  have hsub' : res.toFinset ⊆ domain.toFinset.erase v := by
    intro x hx
    rw [List.mem_toFinset] at hx
    rw [Finset.mem_erase]
    exact ⟨fun hc => hvres (hc ▸ hx), List.mem_toFinset.mpr (hsub x hx)⟩
  have hcard := Finset.card_le_card hsub'
  have herase : (domain.toFinset.erase v).card = domain.toFinset.card - 1 :=
    Finset.card_erase_of_mem (List.mem_toFinset.mpr hv)
  have hpos : 0 < domain.toFinset.card :=
    Finset.card_pos.mpr ⟨v, List.mem_toFinset.mpr hv⟩
  omega

theorem processNeighbors_fold (g : DepGraph) (hg : (g.map Prod.fst).Nodup)
    (C : String → Prop)
    (hCpred : ∀ x, C x → ∃ u, C u ∧ EdgeG g u x)
    (domain : List String) (res' : List String)
    (hCres : ∀ x, C x → x ∉ res') :
    ∀ (ns : List String) (m : List (String × Int)) (q : List String),
      m.map Prod.fst = domain →
      (∀ n ∈ ns, n ∈ domain) →
      q.Nodup → (∀ x ∈ res', x ∉ q) →
      (∀ x ∈ q, x ∈ domain) →
      (∀ x, x ∈ res' ∨ x ∈ q → degOf m x ≤ 0) →
      (∀ v, (occIn g res' v : Int) + (ns.count v : Int) ≤ degOf m v) →
      (∀ x, C x → x ∉ q) →
      ((ns.foldl processNeighbor (m, q)).1.map Prod.fst = domain ∧
       (ns.foldl processNeighbor (m, q)).2.Nodup ∧
       (∀ x ∈ res', x ∉ (ns.foldl processNeighbor (m, q)).2) ∧
       (∀ x ∈ (ns.foldl processNeighbor (m, q)).2, x ∈ domain) ∧
       (∀ x, x ∈ res' ∨ x ∈ (ns.foldl processNeighbor (m, q)).2 →
         degOf (ns.foldl processNeighbor (m, q)).1 x ≤ 0) ∧
       (∀ v, (occIn g res' v : Int) ≤ degOf (ns.foldl processNeighbor (m, q)).1 v) ∧
       (∀ x, C x → x ∉ (ns.foldl processNeighbor (m, q)).2)) := by
  intro ns
  induction ns with
  | nil =>
    intro m q hkeys hnsdom hqnd hdisj hqdom hdeg hocc hCq
    refine ⟨hkeys, hqnd, hdisj, hqdom, hdeg, ?_, hCq⟩
    intro v
    have := hocc v
    simpa using this
  | cons n rest ih =>
    intro m q hkeys hnsdom hqnd hdisj hqdom hdeg hocc hCq
    have hndom : n ∈ domain := hnsdom n (List.mem_cons_self _ _)
    have hm1keys : (decA m n).map Prod.fst = domain := by
      rw [decA_map_fst_of_mem (hkeys ▸ hndom)]
      exact hkeys
    have hdeg1 : ∀ x, degOf (decA m n) x = degOf m x - (if x = n then 1 else 0) :=
      fun x => degOf_decA m n x
    have hocc1 : ∀ v, (occIn g res' v : Int) + (rest.count v : Int) ≤
        degOf (decA m n) v := by
      intro v
      have h0 := hocc v
      rw [hdeg1 v]
      by_cases hv : v = n
      · subst hv
        rw [List.count_cons_self] at h0
        push_cast at h0 ⊢
        omega
      · rw [List.count_cons_of_ne hv] at h0
        simp only [if_neg hv]
        omega
    rw [List.foldl_cons]
    by_cases henq : degOf (decA m n) n = 0
    · -- the neighbor reaches in-degree 0 and is enqueued
      have hstep : processNeighbor (m, q) n = (decA m n, q ++ [n]) := by
        simp only [processNeighbor]
        rw [if_pos henq]
      have hnnotin : n ∉ res' ∧ n ∉ q := by
        constructor <;> intro hc
        · have := hdeg n (Or.inl hc)
          rw [hdeg1 n, if_pos rfl] at henq
          omega
        · have := hdeg n (Or.inr hc)
          rw [hdeg1 n, if_pos rfl] at henq
          omega
      have hCn : ¬ C n := by
        intro hCx
        obtain ⟨u, hCu, hedge⟩ := hCpred n hCx
        have hupos := occIn_pos_of_edge g hg hedge res' (hCres u hCu)
        have h0 := hocc n
        rw [List.count_cons_self] at h0
        rw [hdeg1 n, if_pos rfl] at henq
        push_cast at h0
        omega
      rw [hstep]
      refine ih (decA m n) (q ++ [n]) hm1keys
        (fun x hx => hnsdom x (List.mem_cons_of_mem _ hx)) ?_ ?_ ?_ ?_ hocc1 ?_
      · rw [List.nodup_append]
        exact ⟨hqnd, List.nodup_singleton _,
          fun a ha hb => (List.mem_singleton.mp hb ▸ hnnotin.2) (List.mem_singleton.mp hb ▸ ha)⟩
      · intro x hx hc
        rcases List.mem_append.mp hc with hc' | hc'
        · exact hdisj x hx hc'
        · exact hnnotin.1 (List.mem_singleton.mp hc' ▸ hx)
      · intro x hx
        rcases List.mem_append.mp hx with hc' | hc'
        · exact hqdom x hc'
        · exact List.mem_singleton.mp hc' ▸ hndom
      · intro x hx
        rw [hdeg1 x]
        rcases hx with hx | hx
        · have hd := hdeg x (Or.inl hx)
          by_cases hxn : x = n
          · subst hxn
            simp only [if_pos rfl]
            omega
          · simp only [if_neg hxn]
            omega
        · rcases List.mem_append.mp hx with hc' | hc'
          · have hd := hdeg x (Or.inr hc')
            by_cases hxn : x = n
            · subst hxn
              simp only [if_pos rfl]
              omega
            · simp only [if_neg hxn]
              omega
          · have hxeq := List.mem_singleton.mp hc'
            subst hxeq
            simp only [if_pos rfl]
            have h2 := henq
            rw [hdeg1] at h2
            simp only [if_pos rfl] at h2
            omega
      · intro x hCx hc
        rcases List.mem_append.mp hc with hc' | hc'
        · exact hCq x hCx hc'
        · exact (List.mem_singleton.mp hc' ▸ hCn) hCx
    · -- no enqueue
      have hstep : processNeighbor (m, q) n = (decA m n, q) := by
        simp only [processNeighbor]
        rw [if_neg henq]
      rw [hstep]
      refine ih (decA m n) q hm1keys
        (fun x hx => hnsdom x (List.mem_cons_of_mem _ hx)) hqnd hdisj hqdom
        ?_ hocc1 hCq
      intro x hx
      rw [hdeg1 x]
      have hd := hdeg x hx
      by_cases hxn : x = n
      · subst hxn
        simp only [if_pos rfl]
        omega
      · simp only [if_neg hxn]
        omega

theorem kahnLoop_cycle (g : DepGraph) (hg : (g.map Prod.fst).Nodup)
    (C : String → Prop) (hCpred : ∀ x, C x → ∃ u, C u ∧ EdgeG g u x)
    (domain : List String) (hdomnd : domain.Nodup)
    (hadj_dom : ∀ u : String, ∀ x ∈ adj g u, x ∈ domain) :
    ∀ (fuel : Nat) (queue : List String) (inDeg : List (String × Int))
      (result : List String),
      inDeg.map Prod.fst = domain →
      result.Nodup → queue.Nodup → (∀ x ∈ result, x ∉ queue) →
      (∀ x ∈ result, x ∈ domain) → (∀ x ∈ queue, x ∈ domain) →
      (∀ x, x ∈ result ∨ x ∈ queue → degOf inDeg x ≤ 0) →
      (∀ v, (occIn g result v : Int) ≤ degOf inDeg v) →
      (∀ x, C x → x ∉ result ∧ x ∉ queue) →
      domain.length < fuel + result.length →
      ∃ res fin, kahnLoop g fuel queue inDeg result = some (res, fin) ∧
        fin.map Prod.fst = domain ∧ res.Nodup ∧ (∀ x ∈ res, x ∈ domain) ∧
        (∀ x, C x → x ∉ res) := by
  intro fuel
  induction fuel with
  | zero =>
    intro queue inDeg result hkeys hrnd hqnd hdisj hrdom hqdom hdeg hocc hC hfuel
    rcases queue with _ | ⟨current, rest⟩
    · exact ⟨result, inDeg, rfl, hkeys, hrnd, hrdom, fun x hCx => (hC x hCx).1⟩
    · -- impossible: the nodup result inside domain cannot exceed the domain
      exfalso
      have hmem : current ∈ domain := hqdom current (List.mem_cons_self _ _)
      have hnres : current ∉ result :=
        fun hc => hdisj current hc (List.mem_cons_self _ _)
      have := nodup_length_lt hrnd hrdom hdomnd hmem hnres
      omega
  | succ fuel ih =>
    intro queue inDeg result hkeys hrnd hqnd hdisj hrdom hqdom hdeg hocc hC hfuel
    rcases queue with _ | ⟨current, rest⟩
    · exact ⟨result, inDeg, rfl, hkeys, hrnd, hrdom, fun x hCx => (hC x hCx).1⟩
    · rw [kahnLoop]
      have hcurdom : current ∈ domain := hqdom current (List.mem_cons_self _ _)
      have hcurres : current ∉ result :=
        fun hc => hdisj current hc (List.mem_cons_self _ _)
      have hCres' : ∀ x, C x → x ∉ result ++ [current] := by
        intro x hCx hc
        rcases List.mem_append.mp hc with hc' | hc'
        · exact (hC x hCx).1 hc'
        · exact (hC x hCx).2 (List.mem_singleton.mp hc' ▸ List.mem_cons_self _ _)
      have hqnd' : rest.Nodup := (List.nodup_cons.mp hqnd).2
      have hcurrest : current ∉ rest := (List.nodup_cons.mp hqnd).1
      have hfold := processNeighbors_fold g hg C hCpred domain
        (result ++ [current]) hCres' (adj g current) inDeg rest hkeys
        (fun n hn => hadj_dom current n hn) hqnd'
        (by
          intro x hx hc
          rcases List.mem_append.mp hx with hx' | hx'
          · exact hdisj x hx' (List.mem_cons_of_mem _ hc)
          · exact hcurrest (List.mem_singleton.mp hx' ▸ hc))
        (fun x hx => hqdom x (List.mem_cons_of_mem _ hx))
        (by
          intro x hx
          rcases hx with hx | hx
          · rcases List.mem_append.mp hx with hx' | hx'
            · exact hdeg x (Or.inl hx')
            · exact hdeg x (Or.inr (List.mem_singleton.mp hx' ▸
                List.mem_cons_self _ _))
          · exact hdeg x (Or.inr (List.mem_cons_of_mem _ hx)))
        (by
          intro v
          have hsnoc := occIn_snoc g hg result current hcurres v
          have h0 := hocc v
          push_cast [← hsnoc] at h0
          omega)
        (fun x hCx hc => (hC x hCx).2 (List.mem_cons_of_mem _ hc))
      obtain ⟨hk1, hk2, hk3, hk4, hk5, hk6, hk7⟩ := hfold
      refine ih _ _ (result ++ [current]) hk1 ?_ hk2 hk3 ?_ hk4 hk5 hk6
        (fun x hCx => ⟨hCres' x hCx, hk7 x hCx⟩) ?_
      · rw [List.nodup_append]
        exact ⟨hrnd, List.nodup_singleton _,
          fun a ha hb => (List.mem_singleton.mp hb ▸ hcurres)
            (List.mem_singleton.mp hb ▸ ha)⟩
      · intro x hx
        rcases List.mem_append.mp hx with hx' | hx'
        · exact hrdom x hx'
        · exact List.mem_singleton.mp hx' ▸ hcurdom
      · rw [List.length_append, List.length_singleton]
        omega

/-- A node lying on a cycle of the graph. -/
def OnCycle (g : DepGraph) (x : String) : Prop :=
  Relation.TransGen (EdgeG g) x x

theorem onCycle_pred (g : DepGraph) :
    ∀ x, OnCycle g x → ∃ u, OnCycle g u ∧ EdgeG g u x := by
  intro x hx
  obtain ⟨u, hru, he⟩ := (Relation.TransGen.tail'_iff).mp hx
  exact ⟨u, (Relation.TransGen.head'_iff).mpr ⟨x, he, hru⟩, he⟩

theorem adj_target_mem (g : DepGraph) (u : String) :
    ∀ x ∈ adj g u, x ∈ (buildInDegree g).map Prod.fst := by
  intro x hx
  rcases hl : lookupA g u with _ | l
  · rw [adj, hl] at hx
    cases hx
  · rw [adj, hl] at hx
    exact buildInDegree_mem_of_target g (lookupA_mem hl) hx

theorem initQueue_deg (inDeg : List (String × Int))
    (hnd : (inDeg.map Prod.fst).Nodup) :
    ∀ x ∈ initQueue inDeg, degOf inDeg x = 0 := by
  intro x hx
  obtain ⟨kv, hkv, rfl⟩ := List.mem_map.mp hx
  obtain ⟨a, b⟩ := kv
  have hmem := List.mem_filter.mp hkv
  have hz : b = 0 := by simpa using hmem.2
  subst hz
  rw [degOf, lookupA_of_mem_nodup hnd hmem.1]
  rfl

theorem topologicalSort_cycle_error (g : DepGraph)
    (hg : (g.map Prod.fst).Nodup) (v : String)
    (hcyc : Relation.TransGen (EdgeG g) v v) :
    topologicalSort g = .error (NewPlanningError "circular dependency detected") := by
  set inDeg₀ := buildInDegree g with hinDeg
  set domain := inDeg₀.map Prod.fst with hdomain
  have hdomnd : domain.Nodup := buildInDegree_nodup g
  have hqsub : (inDeg₀.filter (fun kv => kv.2 = 0)).Sublist inDeg₀ :=
    List.filter_sublist _
  have hqnd : (initQueue inDeg₀).Nodup :=
    (hqsub.map Prod.fst).nodup hdomnd
  have hqdom : ∀ x ∈ initQueue inDeg₀, x ∈ domain := by
    intro x hx
    obtain ⟨kv, hkv, rfl⟩ := List.mem_map.mp hx
    exact List.mem_map.mpr ⟨kv, hqsub.mem hkv, rfl⟩
  have hdeg0 : ∀ x ∈ initQueue inDeg₀, degOf inDeg₀ x = 0 :=
    initQueue_deg inDeg₀ hdomnd
  have hocc0 : ∀ w, degOf inDeg₀ w = (occIn g [] w : Int) :=
    fun w => buildInDegree_deg g w
  have hCq : ∀ x, OnCycle g x → x ∉ initQueue inDeg₀ := by
    intro x hx hmem
    obtain ⟨u, _, he⟩ := onCycle_pred g x hx
    have h1 := occIn_pos_of_edge g hg he [] (List.not_mem_nil u)
    have h2 := hdeg0 x hmem
    rw [hocc0 x] at h2
    omega
  have hrun := kahnLoop_cycle g hg (OnCycle g) (onCycle_pred g) domain hdomnd
    (fun u x hx => adj_target_mem g u x hx)
    (inDeg₀.length + 1) (initQueue inDeg₀) inDeg₀ [] rfl
    (List.nodup_nil) hqnd (by simp) (by simp) hqdom
    (by
      intro x hx
      rcases hx with hx | hx
      · cases hx
      · exact le_of_eq (hdeg0 x hx))
    (fun w => le_of_eq (hocc0 w).symm)
    (fun x hx => ⟨List.not_mem_nil x, hCq x hx⟩)
    (by
      have : domain.length = inDeg₀.length := by
        rw [hdomain, List.length_map]
      omega)
  obtain ⟨res, fin, hloop, hfinkeys, hresnd, hressub, hCres⟩ := hrun
  have hvdom : v ∈ domain := by
    obtain ⟨u, _, he⟩ := onCycle_pred g v hcyc
    exact adj_target_mem g u v he
  have hlt : res.length < fin.length := by
    have h1 : res.length < domain.length :=
      nodup_length_lt hresnd hressub hdomnd hvdom (hCres v hcyc)
    have h2 : fin.length = domain.length := by
      rw [← hfinkeys, List.length_map]
    omega
  rw [topologicalSort, ← hinDeg]
  simp only [hloop]
  rw [if_pos (Nat.ne_of_lt hlt)]

/-! DFS cycle detection (pkg/planner/planner.go `checkCircularDependencies`). -/

/-- The `visiting`/`visited` maps of the DFS (as membership lists). -/
structure DfsState where
  visiting : List String
  visited : List String

mutual

/-- The recursive `visit` closure of `checkCircularDependencies`: a node on
the visiting stack signals a cycle, a visited node is skipped, otherwise the
node is pushed, its dependencies visited, and the node moved to visited.
One unit of fuel per nesting level; `checkCircularDependencies` supplies
fuel proved sufficient, so `none` (exhaustion) never occurs. -/
def visit (graph : DepGraph) : Nat → String → DfsState → Option (Except GoErr DfsState)
  | 0, _, _ => none
  | fuel + 1, service, st =>
    if service ∈ st.visiting then
      some (.error (NewPlanningError
        ("circular dependency detected involving service " ++ service)))
    else if service ∈ st.visited then some (.ok st)
    else
      match visitList graph fuel (adj graph service)
          { visiting := service :: st.visiting, visited := st.visited } with
      | none => none
      | some (.error e) => some (.error e)
      | some (.ok st') =>
        some (.ok { visiting := st'.visiting.erase service,
                    visited := service :: st'.visited })

/-- Sequential visit of a dependency list (also the top-level loop over the
map's keys), threading the DFS state. -/
def visitList (graph : DepGraph) (fuel : Nat) :
    List String → DfsState → Option (Except GoErr DfsState)
  | [], st => some (.ok st)
  | dep :: rest, st =>
    match visit graph fuel dep st with
    | none => none
    | some (.error e) => some (.error e)
    | some (.ok st') => visitList graph fuel rest st'

end

/-- All service names the DFS can touch: the map's keys and every listed
dependency, de-duplicated. -/
def dfsUniverse (graph : DepGraph) : List String :=
  dedupStrLoop [] (graph.map Prod.fst ++ graph.flatMap Prod.snd)

/-- `checkCircularDependencies` (pkg/planner/planner.go): DFS from every key
with the visiting/visited maps; any back edge yields a `PlanningError`. -/
def checkCircularDependencies (dependencies : DepGraph) : Except GoErr Unit :=
  match visitList dependencies ((dfsUniverse dependencies).length + 1)
      (dependencies.map Prod.fst) { visiting := [], visited := [] } with
  | none => .error (.plain "model: fuel exhausted")
  | some (.error e) => .error e
  | some (.ok _) => .ok ()

theorem dedupStrLoop_nodup (l : List String) :
    ∀ seen, (dedupStrLoop seen l).Nodup := by
  induction l with
  | nil => intro seen; simp [dedupStrLoop]
  | cons x rest ih =>
    intro seen
    by_cases h : x ∈ seen
    · rw [dedupStrLoop, if_pos h]
      exact ih seen
    · rw [dedupStrLoop, if_neg h]
      rw [List.nodup_cons]
      refine ⟨?_, ih (x :: seen)⟩
      intro hc
      exact ((dedupStrLoop_mem rest (x :: seen) x).mp hc).2 (List.mem_cons_self _ _)

theorem mem_dfsUniverse_key (g : DepGraph) {u : String}
    (h : u ∈ g.map Prod.fst) : u ∈ dfsUniverse g := by
  rw [dfsUniverse, dedupStrLoop_mem]
  exact ⟨List.mem_append.mpr (Or.inl h), List.not_mem_nil u⟩

theorem adj_sub_dfsUniverse (g : DepGraph) (u : String) :
    ∀ x ∈ adj g u, x ∈ dfsUniverse g := by
  intro x hx
  rcases hl : lookupA g u with _ | l
  · rw [adj, hl] at hx
    cases hx
  · rw [adj, hl] at hx
    rw [dfsUniverse, dedupStrLoop_mem]
    refine ⟨List.mem_append.mpr (Or.inr ?_), List.not_mem_nil x⟩
    rw [List.mem_flatMap]
    exact ⟨(u, l), lookupA_mem hl, hx⟩

theorem visit_shape (fuel : Nat) :
    (∀ (g : DepGraph) (s : String) (st st' : DfsState),
      visit g fuel s st = some (.ok st') →
      st'.visiting = st.visiting ∧ (∀ x ∈ st.visited, x ∈ st'.visited) ∧
      s ∈ st'.visited ∧
      (∀ x ∈ st'.visited, x ∈ st.visited ∨ x ∉ st.visiting)) ∧
    (∀ (g : DepGraph) (deps : List String) (st st' : DfsState),
      visitList g fuel deps st = some (.ok st') →
      st'.visiting = st.visiting ∧ (∀ x ∈ st.visited, x ∈ st'.visited) ∧
      (∀ d ∈ deps, d ∈ st'.visited) ∧
      (∀ x ∈ st'.visited, x ∈ st.visited ∨ x ∉ st.visiting)) := by
  induction fuel with
  | zero =>
    constructor
    · intro g s st st' h
      simp [visit] at h
    · intro g deps st st' h
      induction deps generalizing st with
      | nil =>
        simp only [visitList, Option.some.injEq, Except.ok.injEq] at h
        subst h
        exact ⟨rfl, fun x hx => hx, fun d hd => absurd hd (List.not_mem_nil d),
          fun x hx => Or.inl hx⟩
      | cons d rest ihd =>
        simp only [visitList, visit] at h
        cases h
  | succ fuel ih =>
    have hF : ∀ (g : DepGraph) (s : String) (st st' : DfsState),
        visit g (fuel + 1) s st = some (.ok st') →
        st'.visiting = st.visiting ∧ (∀ x ∈ st.visited, x ∈ st'.visited) ∧
        s ∈ st'.visited ∧
        (∀ x ∈ st'.visited, x ∈ st.visited ∨ x ∉ st.visiting) := by
      intro g s st st' h
      rw [visit] at h
      by_cases hvg : s ∈ st.visiting
      · rw [if_pos hvg] at h
        cases h
      · rw [if_neg hvg] at h
        by_cases hvd : s ∈ st.visited
        · rw [if_pos hvd] at h
          cases h
          exact ⟨rfl, fun x hx => hx, hvd, fun x hx => Or.inl hx⟩
        · rw [if_neg hvd] at h
          rcases hcall : visitList g fuel (adj g s)
              { visiting := s :: st.visiting, visited := st.visited } with
            _ | res
          · rw [hcall] at h
            cases h
          · rw [hcall] at h
            rcases res with e | stL
            · cases h
            · cases h
              obtain ⟨hLvg, hLsub, _, hLgray⟩ := ih.2 g (adj g s) _ stL hcall
              refine ⟨?_, ?_, List.mem_cons_self _ _, ?_⟩
              · simp only [hLvg]
                exact List.erase_cons_head s st.visiting
              · exact fun x hx => List.mem_cons_of_mem _ (hLsub x hx)
              · intro x hx
                rcases List.mem_cons.mp hx with rfl | hx'
                · exact Or.inr hvg
                · rcases hLgray x hx' with hin | hnin
                  · exact Or.inl hin
                  · exact Or.inr (fun hc => hnin (List.mem_cons_of_mem _ hc))
    refine ⟨hF, ?_⟩
    intro g deps st st' h
    induction deps generalizing st with
    | nil =>
      simp only [visitList, Option.some.injEq, Except.ok.injEq] at h
      subst h
      exact ⟨rfl, fun x hx => hx, fun d hd => absurd hd (List.not_mem_nil d),
        fun x hx => Or.inl hx⟩
    | cons d rest ihd =>
      rw [visitList] at h
      rcases hv : visit g (fuel + 1) d st with _ | res
      · rw [hv] at h
        cases h
      · rw [hv] at h
        rcases res with e | st1
        · cases h
        · obtain ⟨h1vg, h1sub, h1d, h1gray⟩ := hF g d st st1 hv
          obtain ⟨h2vg, h2sub, h2deps, h2gray⟩ := ihd st1 h
          refine ⟨h2vg.trans h1vg, fun x hx => h2sub x (h1sub x hx), ?_, ?_⟩
          · intro e he
            rcases List.mem_cons.mp he with rfl | he'
            · exact h2sub e h1d
            · exact h2deps e he'
          · intro x hx
            rcases h2gray x hx with hin | hnin
            · rcases h1gray x hin with hin' | hnin'
              · exact Or.inl hin'
              · exact Or.inr hnin'
            · rw [h1vg] at hnin
              exact Or.inr hnin

theorem visit_total (g : DepGraph) : ∀ fuel : Nat,
    (∀ (s : String) (st : DfsState), s ∈ dfsUniverse g →
      ((dfsUniverse g).filter (fun x => x ∉ st.visiting)).length < fuel →
      visit g fuel s st ≠ none) ∧
    (∀ (deps : List String) (st : DfsState),
      (∀ d ∈ deps, d ∈ dfsUniverse g) →
      ((dfsUniverse g).filter (fun x => x ∉ st.visiting)).length < fuel →
      visitList g fuel deps st ≠ none) := by
  have hU : (dfsUniverse g).Nodup := dedupStrLoop_nodup _ _
  intro fuel
  induction fuel with
  | zero => exact ⟨fun s st _ hlt => absurd hlt (Nat.not_lt_zero _),
      fun deps st _ hlt => absurd hlt (Nat.not_lt_zero _)⟩
  | succ fuel ih =>
    have hF : ∀ (s : String) (st : DfsState), s ∈ dfsUniverse g →
        ((dfsUniverse g).filter (fun x => x ∉ st.visiting)).length < fuel + 1 →
        visit g (fuel + 1) s st ≠ none := by
      intro s st hs hlen
      rw [visit]
      by_cases hvg : s ∈ st.visiting
      · rw [if_pos hvg]
        exact fun h => Option.noConfusion h
      · rw [if_neg hvg]
        by_cases hvd : s ∈ st.visited
        · rw [if_pos hvd]
          exact fun h => Option.noConfusion h
        · rw [if_neg hvd]
          have hlen' : ((dfsUniverse g).filter
              (fun x => x ∉ (s :: st.visiting))).length < fuel := by
            have := length_filter_cons_not_mem hU hs hvg
            omega
          rcases hcall : visitList g fuel (adj g s)
              { visiting := s :: st.visiting, visited := st.visited } with _ | res
          · exact absurd hcall (ih.2 (adj g s) _ (adj_sub_dfsUniverse g s) hlen')
          · rcases res with e | st'
            · exact fun h => Option.noConfusion h
            · exact fun h => Option.noConfusion h
    refine ⟨hF, ?_⟩
    intro deps
    induction deps with
    | nil =>
      intro st _ _
      rw [visitList]
      exact fun h => Option.noConfusion h
    | cons d rest ihd =>
      intro st hdeps hlen
      rw [visitList]
      rcases hv : visit g (fuel + 1) d st with _ | res
      · exact absurd hv (hF d st (hdeps d (List.mem_cons_self _ _)) hlen)
      · rcases res with e | st1
        · exact fun h => Option.noConfusion h
        · have hvg := ((visit_shape (fuel + 1)).1 g d st st1 hv).1
          exact ihd st1 (fun x hx => hdeps x (List.mem_cons_of_mem _ hx))
            (by rw [hvg]; exact hlen)

/-- A visited set closed under the graph's edges. -/
def ClosedG (g : DepGraph) (V : List String) : Prop :=
  ∀ u ∈ V, ∀ w, EdgeG g u w → w ∈ V

theorem closedG_reach {g : DepGraph} {V : List String} (hc : ClosedG g V)
    {u y : String} (hu : u ∈ V) (hr : Relation.ReflTransGen (EdgeG g) u y) :
    y ∈ V := by
  induction hr with
  | refl => exact hu
  | tail hab hbc ih => exact hc _ ih _ hbc

theorem visit_acyclic (fuel : Nat) :
    (∀ (g : DepGraph) (s : String) (st st' : DfsState),
      visit g fuel s st = some (.ok st') →
      ClosedG g st.visited → (∀ x ∈ st.visited, ¬ OnCycle g x) →
      ClosedG g st'.visited ∧ ∀ x ∈ st'.visited, ¬ OnCycle g x) ∧
    (∀ (g : DepGraph) (deps : List String) (st st' : DfsState),
      visitList g fuel deps st = some (.ok st') →
      ClosedG g st.visited → (∀ x ∈ st.visited, ¬ OnCycle g x) →
      ClosedG g st'.visited ∧ ∀ x ∈ st'.visited, ¬ OnCycle g x) := by
  induction fuel with
  | zero =>
    constructor
    · intro g s st st' h
      simp [visit] at h
    · intro g deps st st' h hcl hacyc
      induction deps generalizing st with
      | nil =>
        simp only [visitList, Option.some.injEq, Except.ok.injEq] at h
        subst h
        exact ⟨hcl, hacyc⟩
      | cons d rest ihd =>
        simp only [visitList, visit] at h
        cases h
  | succ fuel ih =>
    have hF : ∀ (g : DepGraph) (s : String) (st st' : DfsState),
        visit g (fuel + 1) s st = some (.ok st') →
        ClosedG g st.visited → (∀ x ∈ st.visited, ¬ OnCycle g x) →
        ClosedG g st'.visited ∧ ∀ x ∈ st'.visited, ¬ OnCycle g x := by
      intro g s st st' h hcl hacyc
      rw [visit] at h
      by_cases hvg : s ∈ st.visiting
      · rw [if_pos hvg] at h
        cases h
      · rw [if_neg hvg] at h
        by_cases hvd : s ∈ st.visited
        · rw [if_pos hvd] at h
          cases h
          exact ⟨hcl, hacyc⟩
        · rw [if_neg hvd] at h
          rcases hcall : visitList g fuel (adj g s)
              { visiting := s :: st.visiting, visited := st.visited } with _ | res
          · rw [hcall] at h
            cases h
          · rw [hcall] at h
            rcases res with e | stL
            · cases h
            · cases h
              obtain ⟨hclL, hacycL⟩ := ih.2 g (adj g s) _ stL hcall hcl hacyc
              obtain ⟨_, _, hdeps, hgray⟩ := (visit_shape fuel).2 g (adj g s) _ stL hcall
              have hclos : ClosedG g (s :: stL.visited) := by
                intro u hu w hw
                rcases List.mem_cons.mp hu with rfl | hu'
                · exact List.mem_cons_of_mem _ (hdeps w hw)
                · exact List.mem_cons_of_mem _ (hclL u hu' w hw)
              refine ⟨hclos, ?_⟩
              intro x hx hx_cyc
              rcases List.mem_cons.mp hx with rfl | hx'
              · obtain ⟨w, he, hr⟩ := (Relation.TransGen.head'_iff).mp hx_cyc
                have hwL : w ∈ stL.visited := hdeps w he
                have hsL : x ∈ stL.visited := closedG_reach hclL hwL hr
                rcases hgray x hsL with hin | hnin
                · exact hvd hin
                · exact hnin (List.mem_cons_self _ _)
              · exact hacycL x hx' hx_cyc
    refine ⟨hF, ?_⟩
    intro g deps st st' h hcl hacyc
    induction deps generalizing st with
    | nil =>
      simp only [visitList, Option.some.injEq, Except.ok.injEq] at h
      subst h
      exact ⟨hcl, hacyc⟩
    | cons d rest ihd =>
      rw [visitList] at h
      rcases hv : visit g (fuel + 1) d st with _ | res
      · rw [hv] at h
        cases h
      · rw [hv] at h
        rcases res with e | st1
        · cases h
        · obtain ⟨hcl1, hacyc1⟩ := hF g d st st1 hv hcl hacyc
          exact ihd st1 h hcl1 hacyc1

theorem visit_err (fuel : Nat) :
    (∀ (g : DepGraph) (s : String) (st : DfsState) (e : GoErr),
      visit g fuel s st = some (.error e) →
      ∃ svc, e = NewPlanningError
        ("circular dependency detected involving service " ++ svc)) ∧
    (∀ (g : DepGraph) (deps : List String) (st : DfsState) (e : GoErr),
      visitList g fuel deps st = some (.error e) →
      ∃ svc, e = NewPlanningError
        ("circular dependency detected involving service " ++ svc)) := by
  induction fuel with
  | zero =>
    constructor
    · intro g s st e h
      simp [visit] at h
    · intro g deps st e h
      induction deps generalizing st with
      | nil => simp [visitList] at h
      | cons d rest ihd =>
        simp only [visitList, visit] at h
        cases h
  | succ fuel ih =>
    have hF : ∀ (g : DepGraph) (s : String) (st : DfsState) (e : GoErr),
        visit g (fuel + 1) s st = some (.error e) →
        ∃ svc, e = NewPlanningError
          ("circular dependency detected involving service " ++ svc) := by
      intro g s st e h
      rw [visit] at h
      by_cases hvg : s ∈ st.visiting
      · rw [if_pos hvg] at h
        cases h
        exact ⟨s, rfl⟩
      · rw [if_neg hvg] at h
        by_cases hvd : s ∈ st.visited
        · rw [if_pos hvd] at h
          cases h
        · rw [if_neg hvd] at h
          rcases hcall : visitList g fuel (adj g s)
              { visiting := s :: st.visiting, visited := st.visited } with _ | res
          · rw [hcall] at h
            cases h
          · rw [hcall] at h
            rcases res with e' | stL
            · cases h
              exact ih.2 g (adj g s) _ e hcall
            · cases h
    refine ⟨hF, ?_⟩
    intro g deps st e h
    induction deps generalizing st with
    | nil => simp [visitList] at h
    | cons d rest ihd =>
      rw [visitList] at h
      rcases hv : visit g (fuel + 1) d st with _ | res
      · rw [hv] at h
        cases h
      · rw [hv] at h
        rcases res with e' | st1
        · cases h
          exact hF g d st e hv
        · exact ihd st1 h

theorem checkCircularDependencies_cycle (g : DepGraph) (v : String)
    (hcyc : OnCycle g v) :
    ∃ s, checkCircularDependencies g = .error (NewPlanningError
      ("circular dependency detected involving service " ++ s)) := by
  rcases hrun : visitList g ((dfsUniverse g).length + 1) (g.map Prod.fst)
      { visiting := [], visited := [] } with _ | res
  · exfalso
    refine (visit_total g ((dfsUniverse g).length + 1)).2 (g.map Prod.fst)
      { visiting := [], visited := [] }
      (fun d hd => mem_dfsUniverse_key g hd) ?_ hrun
    exact Nat.lt_succ_of_le (List.length_filter_le _ _)
  · rcases res with e | st'
    · obtain ⟨svc, rfl⟩ := (visit_err _).2 g _ _ e hrun
      refine ⟨svc, ?_⟩
      rw [checkCircularDependencies, hrun]
    · exfalso
      obtain ⟨_, _, hkeys, _⟩ := (visit_shape _).2 g _ _ st' hrun
      obtain ⟨hcl, hacyc⟩ := (visit_acyclic _).2 g _ _ st' hrun
        (fun u hu => absurd hu (List.not_mem_nil u))
        (fun x hx => absurd hx (List.not_mem_nil x))
      have hvkey : v ∈ g.map Prod.fst := by
        obtain ⟨w, he, _⟩ := (Relation.TransGen.head'_iff).mp hcyc
        rcases hl : lookupA g v with _ | l
        · rw [EdgeG, adj, hl] at he
          cases he
        · exact (lookupA_isSome_iff g v).mp (by rw [hl]; rfl)
      exact hacyc v (hkeys v hvkey) hcyc

/-- `validateSubQuery` (pkg/planner/planner.go): a sub-query must carry a
service name, a query and a positive timeout. -/
def validateSubQuery (subQuery : SubQuery) (index : Nat) : Except GoErr Unit :=
  if subQuery.serviceName = "" then
    .error (NewPlanningError
      ("sub-query " ++ toString index ++ " has empty service name"))
  else if subQuery.query = "" then
    .error (NewPlanningError ("sub-query " ++ toString index ++ " has empty query"))
  else if subQuery.timeout ≤ 0 then
    .error (NewPlanningError ("sub-query " ++ toString index ++ " has invalid timeout"))
  else .ok ()

/-- The `for i, subQuery := range plan.SubQueries` loop of `ValidatePlan`:
first failing sub-query aborts validation. -/
def validateSubQueries : List SubQuery → Nat → Except GoErr Unit
  | [], _ => .ok ()
  | sq :: rest, i =>
    match validateSubQuery sq i with
    | .error e => .error e
    | .ok _ => validateSubQueries rest (i + 1)

/-- Inner loop of `validateDependencies`: each dependency of `service` must
be a registered service name. -/
def validateDepsFor (names : List String) (service : String) :
    List String → Except GoErr Unit
  | [] => .ok ()
  | dep :: rest =>
    if names.contains dep then validateDepsFor names service rest
    else .error (NewPlanningError
      ("service " ++ service ++ " depends on non-existent service " ++ dep))

/-- `validateDependencies` (pkg/planner/planner.go): every listed dependency
must name a service that occurs among the sub-queries. -/
def validateDependencies (dependencies : DepGraph)
    (subQueries : List SubQuery) : Except GoErr Unit :=
  let names := subQueries.map SubQuery.serviceName
  let rec go : List (String × List String) → Except GoErr Unit
    | [] => .ok ()
    | (service, deps) :: rest =>
      match validateDepsFor names service deps with
      | .error e => .error e
      | .ok _ => go rest
  go dependencies

/-- `ValidatePlan` (pkg/planner/planner.go): nil check, non-empty sub-query
list, per-sub-query validation, dependency-name validation, then the DFS
cycle check. `none` models a nil `*ExecutionPlan`. -/
def ValidatePlan (plan : Option ExecutionPlan) : Except GoErr Unit :=
  match plan with
  | none => .error (NewPlanningError "plan is nil")
  | some plan =>
    if plan.subQueries.length = 0 then
      .error (NewPlanningError "plan has no sub-queries")
    else
      match validateSubQueries plan.subQueries 0 with
      | .error e => .error e
      | .ok _ =>
        match validateDependencies plan.dependencies plan.subQueries with
        | .error e => .error e
        | .ok _ =>
          match checkCircularDependencies plan.dependencies with
          | .error e => .error e
          | .ok _ => .ok ()

theorem validateSubQueries_code (l : List SubQuery) :
    ∀ (i : Nat) (e : GoErr), validateSubQueries l i = .error e →
      e.code = ErrCodePlanningFailed := by
  induction l with
  | nil =>
    intro i e h
    simp [validateSubQueries] at h
  | cons sq rest ih =>
    intro i e h
    rw [validateSubQueries] at h
    rw [validateSubQuery] at h
    by_cases h1 : sq.serviceName = ""
    · rw [if_pos h1] at h
      cases h
      rfl
    · rw [if_neg h1] at h
      by_cases h2 : sq.query = ""
      · rw [if_pos h2] at h
        cases h
        rfl
      · rw [if_neg h2] at h
        by_cases h3 : sq.timeout ≤ 0
        · rw [if_pos h3] at h
          cases h
          rfl
        · rw [if_neg h3] at h
          exact ih (i + 1) e h

theorem validateDepsFor_code (names : List String) (service : String)
    (deps : List String) :
    ∀ e : GoErr, validateDepsFor names service deps = .error e →
      e.code = ErrCodePlanningFailed := by
  induction deps with
  | nil =>
    intro e h
    simp [validateDepsFor] at h
  | cons d rest ih =>
    intro e h
    rw [validateDepsFor] at h
    by_cases hd : names.contains d
    · rw [if_pos hd] at h
      exact ih e h
    · rw [if_neg hd] at h
      cases h
      rfl

theorem validateDependencies_go_code (names : List String)
    (l : List (String × List String)) :
    ∀ e : GoErr, validateDependencies.go names l = .error e →
      e.code = ErrCodePlanningFailed := by
  induction l with
  | nil =>
    intro e h
    simp [validateDependencies.go] at h
  | cons kv rest ih =>
    obtain ⟨service, deps⟩ := kv
    intro e h
    rw [validateDependencies.go] at h
    rcases hv : validateDepsFor names service deps with e' | u
    · rw [hv] at h
      cases h
      exact validateDepsFor_code names service deps e hv
    · rw [hv] at h
      exact ih e h

theorem checkCircularDependencies_code (g : DepGraph) :
    ∀ e : GoErr, checkCircularDependencies g = .error e →
      e.code = ErrCodePlanningFailed := by
  intro e h
  rcases hrun : visitList g ((dfsUniverse g).length + 1) (g.map Prod.fst)
      { visiting := [], visited := [] } with _ | res
  · exact absurd hrun ((visit_total g ((dfsUniverse g).length + 1)).2
      (g.map Prod.fst) { visiting := [], visited := [] }
      (fun d hd => mem_dfsUniverse_key g hd)
      (Nat.lt_succ_of_le (List.length_filter_le _ _)))
  · rcases res with e' | st'
    · rw [checkCircularDependencies, hrun] at h
      cases h
      obtain ⟨svc, rfl⟩ := (visit_err _).2 g _ _ e hrun
      rfl
    · rw [checkCircularDependencies, hrun] at h
      cases h

/-- **C1.** For every dependency graph with duplicate-free keys containing a
cycle, (i) Kahn's-algorithm `topologicalSort` returns exactly the
`PlanningError` "circular dependency detected" (never an ordering), (ii) the
planner's DFS `checkCircularDependencies` returns a `PlanningError` naming a
service on the cycle path, and (iii) `ValidatePlan` on any plan carrying that
dependency graph returns an error with code `PLANNING_FAILED`, never success. -/
theorem cyclic_dependency_planning_error (g : DepGraph)
    (hg : (g.map Prod.fst).Nodup) (v : String)
    (hcyc : Relation.TransGen (EdgeG g) v v) :
    topologicalSort g = .error (NewPlanningError "circular dependency detected") ∧
    (∃ s, checkCircularDependencies g = .error (NewPlanningError
      ("circular dependency detected involving service " ++ s))) ∧
    (∀ plan : ExecutionPlan, plan.dependencies = g →
      ∃ e, ValidatePlan (some plan) = .error e ∧
        e.code = ErrCodePlanningFailed) := by
  refine ⟨topologicalSort_cycle_error g hg v hcyc,
    checkCircularDependencies_cycle g v hcyc, ?_⟩
  intro plan hdep
  rw [ValidatePlan]
  by_cases hlen : plan.subQueries.length = 0
  · rw [if_pos hlen]
    exact ⟨_, rfl, rfl⟩
  · rw [if_neg hlen]
    rcases hsq : validateSubQueries plan.subQueries 0 with e | u
    · exact ⟨e, rfl, validateSubQueries_code _ 0 e hsq⟩
    · rcases hvd : validateDependencies plan.dependencies plan.subQueries
          with e | u
      · refine ⟨e, rfl, ?_⟩
        rw [validateDependencies] at hvd
        exact validateDependencies_go_code _ _ e hvd
      · obtain ⟨s, hcc⟩ := checkCircularDependencies_cycle g v hcyc
        rw [hdep, hcc]
        exact ⟨_, rfl, rfl⟩

theorem cyclic_dependency_planning_error_witness :
    topologicalSort [("a", ["b"]), ("b", ["a"])] =
      .error (NewPlanningError "circular dependency detected") ∧
    (∃ s, checkCircularDependencies [("a", ["b"]), ("b", ["a"])] =
      .error (NewPlanningError
        ("circular dependency detected involving service " ++ s))) ∧
    (∀ plan : ExecutionPlan,
      plan.dependencies = [("a", ["b"]), ("b", ["a"])] →
      ∃ e, ValidatePlan (some plan) = .error e ∧
        e.code = ErrCodePlanningFailed) := by
  have h1 : EdgeG [("a", ["b"]), ("b", ["a"])] "a" "b" := by
    unfold EdgeG
    decide
  have h2 : EdgeG [("a", ["b"]), ("b", ["a"])] "b" "a" := by
    unfold EdgeG
    decide
  exact cyclic_dependency_planning_error [("a", ["b"]), ("b", ["a"])]
    (by decide) "a" (Relation.TransGen.head h1 (Relation.TransGen.single h2))

end FedGw
